import Mathlib

/-!
Verification of the Geographer partitioning core against its specification.

This file gives a shallow embedding, in Lean 4, of the parts of the
Geographer source relevant to the checked claims:

* the graph metrics of GraphUtils.cpp (computeCut, computeImbalance,
  computeCommVolume, nonLocalNeighbors, getPEGraph);
* the balanced-k-means core of src/KMeans.cpp (findCenters, the empty-center
  reset of computePartition, the per-point assignment of assignBlocks, the
  loop-control structure of the two iteration loops);
* the two-way Fiduccia-Mattheyses refinement of ParcoRepart.cpp
  (twoWayLocalFM and the cut bookkeeping of a pair exchange).

Modelling conventions.  The C++ code runs single-program-multiple-data over a
fixed process set; all reductions are deterministic, so the embedding models
one process (collective sums become plain sums, or an explicit sum over a
list of per-process contributions where the distinction matters, as in
findCenters).  Machine doubles are modelled by ℚ; the two IEEE special
values the code manipulates explicitly are modelled by Option ℚ with an
explicit convention per use site: for k-means distance bounds, none stands
for the DBL_MAX sentinel of an unvisited bound (an infinity), while in
findCenters none stands for NaN and propagates through arithmetic.  Signed
machine integers are modelled by Int where subtraction matters, Nat
otherwise.  C++ std::set is modelled by Finset.
-/

namespace Geographer

/-! ## Loop control of KMeans::computePartition and KMeans::assignBlocks

The main k-means loop (src/KMeans.cpp:1365-1633) is a do-while loop whose
continuation test is
  iter < samplingRounds or (iter < maxIterations && (delta > threshold || !balanced))
and the balance loop of assignBlocks (src/KMeans.cpp:659-997) is a do-while
loop with continuation test
  (!allWeightsBalanced) && iter < settings.balanceIterations.
In both loops iter is incremented at the end of the body, so the test after
n executed bodies sees iter = n.  The loop bodies are abstracted into the
boolean oracles needMoreWork / allWeightsBalanced, which is exact for
iteration-count claims: the counts depend on the body only through these
tests.  The fuel argument realises termination; the theorems show the count
is stable once the fuel passes the bound at which the test is always false.
-/

/-- One do-while loop: the body has already run `it` times and is about to
run again; after running, the test `cond (it+1)` decides continuation.
Returns the total number of body executions. -/
def doWhileAux (cond : Nat → Bool) : Nat → Nat → Nat
  | 0, it => it + 1
  | Nat.succ fuel, it => if cond (it + 1) then doWhileAux cond fuel (it + 1) else it + 1

/-- Number of body executions of a do-while loop with continuation test
`cond`, given enough fuel. -/
def doWhileIters (cond : Nat → Bool) (fuel : Nat) : Nat := doWhileAux cond fuel 0

/-- Continuation test of the main k-means loop, src/KMeans.cpp:1633. -/
def kmeansMainLoopCond (samplingRounds maxIterations : Nat) (needMoreWork : Nat → Bool)
    (it : Nat) : Bool :=
  decide (it < samplingRounds) || (decide (it < maxIterations) && needMoreWork it)

/-- Continuation test of the balance loop of assignBlocks, src/KMeans.cpp:997. -/
def balanceLoopCond (balanceIterations : Nat) (allWeightsBalanced : Nat → Bool)
    (it : Nat) : Bool :=
  (!(allWeightsBalanced it)) && decide (it < balanceIterations)

/-- Iteration count of the main k-means loop. -/
def kmeansMainLoopIters (samplingRounds maxIterations : Nat) (needMoreWork : Nat → Bool) : Nat :=
  doWhileIters (kmeansMainLoopCond samplingRounds maxIterations needMoreWork)
    (max samplingRounds maxIterations)

/-- Iteration count of the balance loop of assignBlocks. -/
def balanceLoopIters (balanceIterations : Nat) (allWeightsBalanced : Nat → Bool) : Nat :=
  doWhileIters (balanceLoopCond balanceIterations allWeightsBalanced) balanceIterations

theorem doWhileAux_le (cond : Nat → Bool) (B : Nat)
    (h : ∀ n, B ≤ n → cond n = false) :
    ∀ fuel it, doWhileAux cond fuel it ≤ max B (it + 1) := by
  intro fuel
  induction fuel with
  | zero => intro it; simp [doWhileAux]
  | succ f ih =>
    intro it
    by_cases hc : cond (it + 1) = true
    · have hlt : it + 1 < B := by
        by_contra hge
        have := h (it + 1) (Nat.le_of_not_lt hge)
        rw [this] at hc; exact Bool.noConfusion hc
      have h1 : doWhileAux cond (f + 1) it = doWhileAux cond f (it + 1) := by
        simp [doWhileAux, hc]
      rw [h1]
      have h2 := ih (it + 1)
      have h3 : max B (it + 1 + 1) = B := by
        apply Nat.max_eq_left
        exact hlt
      have h4 : max B (it + 1) = B := by
        apply Nat.max_eq_left
        exact Nat.le_of_lt hlt
      rw [h3] at h2
      rw [h4]
      exact h2
    · have hc2 : cond (it + 1) = false := by
        cases hcc : cond (it + 1)
        · rfl
        · exact absurd hcc hc
      simp [doWhileAux, hc2]

theorem doWhileAux_stable (cond : Nat → Bool) (B : Nat)
    (h : ∀ n, B ≤ n → cond n = false) :
    ∀ f1 f2 it, B ≤ it + 1 + f1 → B ≤ it + 1 + f2 →
      doWhileAux cond f1 it = doWhileAux cond f2 it := by
  intro f1
  induction f1 with
  | zero =>
    intro f2 it h1 _
    have hc : cond (it + 1) = false := h _ (by omega)
    cases f2 with
    | zero => rfl
    | succ g => simp [doWhileAux, hc]
  | succ g1 ih =>
    intro f2 it h1 h2
    by_cases hc : cond (it + 1) = true
    · have hlt : it + 1 < B := by
        by_contra hge
        have := h (it + 1) (Nat.le_of_not_lt hge)
        rw [this] at hc; exact Bool.noConfusion hc
      cases f2 with
      | zero => omega
      | succ g2 =>
        have e1 : doWhileAux cond (g1 + 1) it = doWhileAux cond g1 (it + 1) := by
          simp [doWhileAux, hc]
        have e2 : doWhileAux cond (g2 + 1) it = doWhileAux cond g2 (it + 1) := by
          simp [doWhileAux, hc]
        rw [e1, e2]
        exact ih g2 (it + 1) (by omega) (by omega)
    · have hc2 : cond (it + 1) = false := by
        cases hcc : cond (it + 1)
        · rfl
        · exact absurd hcc hc
      cases f2 with
      | zero => simp [doWhileAux, hc2]
      | succ g2 => simp [doWhileAux, hc2]

theorem kmeansMainLoopCond_false (samplingRounds maxIterations : Nat)
    (needMoreWork : Nat → Bool) :
    ∀ n, max samplingRounds maxIterations ≤ n →
      kmeansMainLoopCond samplingRounds maxIterations needMoreWork n = false := by
  intro n hn
  have h1 : ¬ (n < samplingRounds) := by omega
  have h2 : ¬ (n < maxIterations) := by omega
  simp [kmeansMainLoopCond, h1, h2]

theorem balanceLoopCond_false (balanceIterations : Nat) (allWeightsBalanced : Nat → Bool) :
    ∀ n, balanceIterations ≤ n →
      balanceLoopCond balanceIterations allWeightsBalanced n = false := by
  intro n hn
  have h1 : ¬ (n < balanceIterations) := by omega
  simp [balanceLoopCond, h1]

/-! ## GraphUtils::computeImbalance (src/GraphUtils.cpp:167-247)

The source computes per-block weight sums `subsetSizes` in one pass over the
local points, takes the global maximum block weight, and divides by
`optSize = ceil(weightSum / k)` (weighted) or `ceil(globalN / k)`
(unweighted).  Block ids are modelled as Nat, so the source's `minK < 0`
error branch cannot fire in the embedding and is omitted. -/

/-- Maximum of a list of rationals, as std::max_element over a nonempty
vector (the fold starts from the first element). -/
def listMaxQ (l : List ℚ) : ℚ := l.foldl max (l.headD 0)

/-- Minimum of a list of rationals. -/
def listMinQ (l : List ℚ) : ℚ := l.foldl min (l.headD 0)

/-- The accumulation loop of computeImbalance: `subsetSizes[part[i]] += weight(i)`
over all local indices, starting from a zero vector of length k. -/
def accumulateBlockWeights (part : List Nat) (w : Nat → ℚ) (k : Nat) : List ℚ :=
  (List.range part.length).foldl
    (fun acc i =>
      let partID := part.getD i 0
      acc.set partID (acc.getD partID 0 + w i))
    (List.replicate k 0)

/-- GraphUtils::computeImbalance.  Returns `(maxBlockSize - optSize) / optSize`
with `optSize = ceil(total weight / k)`. -/
def computeImbalance (part : List Nat) (k : Nat) (nodeWeights : List ℚ) :
    Except String ℚ :=
  let globalN := part.length
  let weighted := nodeWeights.length ≠ 0
  let minWeight : ℚ := if weighted then listMinQ nodeWeights else 1
  let maxWeight : ℚ := if weighted then listMaxQ nodeWeights else 1
  if maxWeight ≤ 0 then
    Except.error ("Node weight vector given, but all weights non-positive.")
  else if minWeight < 0 then
    Except.error ("Negative node weights not supported.")
  else
    let maxK := part.foldl max (part.headD 0)
    if k ≤ maxK then
      Except.error ("Block id found in partition with fewer blocks.")
    else
      let w : Nat → ℚ := fun i => if weighted then nodeWeights.getD i 0 else 1
      let subsetSizes := accumulateBlockWeights part w k
      let weightSum : ℚ := ((List.range globalN).map w).sum
      let optSize : ℚ :=
        if weighted then ((Int.ceil (weightSum / (k : ℚ)) : ℤ) : ℚ)
        else ((Int.ceil ((globalN : ℚ) / (k : ℚ)) : ℤ) : ℚ)
      let maxBlockSize := listMaxQ subsetSizes
      Except.ok ((maxBlockSize - optSize) / optSize)

/-- Reference per-block weight: the summed weight of the points assigned to
block `b`. -/
def blockWeightOf (part : List Nat) (w : Nat → ℚ) (b : Nat) : ℚ :=
  ∑ i ∈ Finset.range part.length, if part.getD i 0 = b then w i else 0

theorem listSum_range_map (f : Nat → ℚ) :
    ∀ n, ((List.range n).map f).sum = ∑ i ∈ Finset.range n, f i := by
  intro n
  induction n with
  | zero => simp
  | succ m ih => rw [List.range_succ, Finset.sum_range_succ]; simp [ih]

theorem listGetD_set_self {α : Type} (l : List α) (i : Nat) (v d : α) (h : i < l.length) :
    (l.set i v).getD i d = v := by
  simp [List.getD, List.get?_eq_getElem?, List.getElem?_set_self h]

theorem listGetD_set_ne {α : Type} (l : List α) (i j : Nat) (v d : α) (h : i ≠ j) :
    (l.set i v).getD j d = l.getD j d := by
  simp [List.getD, List.get?_eq_getElem?, List.getElem?_set_ne h]

theorem blockWeight_fold (part : List Nat) (w : Nat → ℚ) (k : Nat) :
    ∀ (idxs : List Nat) (acc : List ℚ), acc.length = k →
      (∀ i ∈ idxs, part.getD i 0 < k) →
      ∀ b, b < k →
        ((idxs.foldl
          (fun acc i =>
            let partID := part.getD i 0
            acc.set partID (acc.getD partID 0 + w i)) acc)).getD b 0
          = acc.getD b 0 + (idxs.map (fun i => if part.getD i 0 = b then w i else 0)).sum := by
  intro idxs
  induction idxs with
  | nil => intro acc _ _ b _; simp
  | cons a rest ih =>
    intro acc hlen hall b hb
    have hpid : part.getD a 0 < k := hall a (List.mem_cons_self a rest)
    have hlen2 : (acc.set (part.getD a 0) (acc.getD (part.getD a 0) 0 + w a)).length = k := by
      simp [hlen]
    have hall2 : ∀ i ∈ rest, part.getD i 0 < k := fun i hi => hall i (List.mem_cons_of_mem a hi)
    have step := ih (acc.set (part.getD a 0) (acc.getD (part.getD a 0) 0 + w a)) hlen2 hall2 b hb
    simp only [List.foldl_cons, List.map_cons, List.sum_cons]
    rw [step]
    by_cases hba : part.getD a 0 = b
    · subst hba
      have hlt : part.getD a 0 < acc.length := by omega
      have hget := listGetD_set_self acc (part.getD a 0) (acc.getD (part.getD a 0) 0 + w a) 0 hlt
      rw [hget]
      simp
      ring
    · have hget := listGetD_set_ne acc (part.getD a 0) b (acc.getD (part.getD a 0) 0 + w a) 0 hba
      rw [hget]
      rw [if_neg hba]
      ring

theorem accumulateBlockWeights_getD (part : List Nat) (w : Nat → ℚ) (k : Nat)
    (hids : ∀ i ∈ part, i < k) (b : Nat) (hb : b < k) :
    (accumulateBlockWeights part w k).getD b 0 = blockWeightOf part w b := by
  unfold accumulateBlockWeights blockWeightOf
  have hall : ∀ i ∈ List.range part.length, part.getD i 0 < k := by
    intro i hi
    have hi2 : i < part.length := List.mem_range.mp hi
    have hg : part.getD i 0 ∈ part := by
      rw [List.getD_eq_getElem part 0 hi2]
      exact List.getElem_mem hi2
    exact hids _ hg
  rw [blockWeight_fold part w k (List.range part.length) (List.replicate k 0)
    (by simp) hall b hb]
  have hz : (List.replicate k 0).getD b 0 = (0 : ℚ) := by
    simp [List.getD, List.getElem?_replicate, hb]
  rw [hz, listSum_range_map (fun i => if part.getD i 0 = b then w i else 0)]
  ring

theorem foldl_max_spec {α : Type} [LinearOrder α] (l : List α) :
    ∀ a : α, a ≤ l.foldl max a ∧ (∀ x ∈ l, x ≤ l.foldl max a) ∧
      (l.foldl max a = a ∨ l.foldl max a ∈ l) := by
  induction l with
  | nil => intro a; exact ⟨le_rfl, by simp, Or.inl rfl⟩
  | cons b t ih =>
    intro a
    obtain ⟨h1, h2, h3⟩ := ih (max a b)
    refine ⟨le_trans (le_max_left a b) h1, ?_, ?_⟩
    · intro x hx
      rcases List.mem_cons.mp hx with hxb | hxt
      · subst hxb; exact le_trans (le_max_right a x) h1
      · exact h2 x hxt
    · rcases h3 with he | hm
      · rcases max_choice a b with hab | hab
        · exact Or.inl (by rw [List.foldl_cons, he, hab])
        · refine Or.inr ?_
          rw [List.foldl_cons, he, hab]
          exact List.mem_cons_self b t
      · exact Or.inr (List.mem_cons_of_mem b hm)

theorem foldl_min_spec {α : Type} [LinearOrder α] (l : List α) :
    ∀ a : α, l.foldl min a ≤ a ∧ (∀ x ∈ l, l.foldl min a ≤ x) ∧
      (l.foldl min a = a ∨ l.foldl min a ∈ l) := by
  induction l with
  | nil => intro a; exact ⟨le_rfl, by simp, Or.inl rfl⟩
  | cons b t ih =>
    intro a
    obtain ⟨h1, h2, h3⟩ := ih (min a b)
    refine ⟨le_trans h1 (min_le_left a b), ?_, ?_⟩
    · intro x hx
      rcases List.mem_cons.mp hx with hxb | hxt
      · subst hxb; exact le_trans h1 (min_le_right a x)
      · exact h2 x hxt
    · rcases h3 with he | hm
      · rcases min_choice a b with hab | hab
        · exact Or.inl (by rw [List.foldl_cons, he, hab])
        · refine Or.inr ?_
          rw [List.foldl_cons, he, hab]
          exact List.mem_cons_self b t
      · exact Or.inr (List.mem_cons_of_mem b hm)

theorem headD_mem {α : Type} (l : List α) (hne : l ≠ []) (d : α) : l.headD d ∈ l := by
  cases l with
  | nil => exact absurd rfl hne
  | cons a t => exact List.mem_cons_self a t

theorem accumulateBlockWeights_length (part : List Nat) (w : Nat → ℚ) (k : Nat) :
    (accumulateBlockWeights part w k).length = k := by
  unfold accumulateBlockWeights
  suffices h : ∀ (idxs : List Nat) (acc : List ℚ),
      (idxs.foldl (fun acc i =>
        let partID := part.getD i 0
        acc.set partID (acc.getD partID 0 + w i)) acc).length = acc.length by
    rw [h]; simp
  intro idxs
  induction idxs with
  | nil => intro acc; rfl
  | cons a rest ih => intro acc; rw [List.foldl_cons, ih]; simp

/-- Claim C4, amended: computeImbalance returns `(max_b W[b] - T) / T` with
the uniform target `T = ceil(total weight / k)` (the source rounds the
target up to an integer; it is not the exact quotient `total/k`). -/
theorem computeImbalance_formula (part : List Nat) (k : Nat) (nodeWeights : List ℚ)
    (hk : 1 ≤ k)
    (hlen : nodeWeights.length = part.length)
    (hpos : ∃ x ∈ nodeWeights, 0 < x)
    (hnn : ∀ x ∈ nodeWeights, 0 ≤ x)
    (hids : ∀ i ∈ part, i < k) :
    ∃ b, b < k ∧
      computeImbalance part k nodeWeights
        = Except.ok ((blockWeightOf part (fun i => nodeWeights.getD i 0) b
            - ((Int.ceil ((∑ i ∈ Finset.range part.length, nodeWeights.getD i 0) / (k : ℚ)) : ℤ) : ℚ))
          / ((Int.ceil ((∑ i ∈ Finset.range part.length, nodeWeights.getD i 0) / (k : ℚ)) : ℤ) : ℚ)) ∧
      ∀ c, c < k → blockWeightOf part (fun i => nodeWeights.getD i 0) c
        ≤ blockWeightOf part (fun i => nodeWeights.getD i 0) b := by
  obtain ⟨x, hxmem, hxpos⟩ := hpos
  have hwne : nodeWeights ≠ [] := by
    intro h; rw [h] at hxmem; exact absurd hxmem (List.not_mem_nil x)
  have hwlen : nodeWeights.length ≠ 0 := by
    intro h; exact hwne (List.length_eq_zero.mp h)
  -- the error branches do not fire
  have hmaxW : ¬ (listMaxQ nodeWeights ≤ 0) := by
    have := (foldl_max_spec nodeWeights (nodeWeights.headD 0)).2.1 x hxmem
    intro hle
    exact absurd (lt_of_lt_of_le hxpos this) (not_lt.mpr hle)
  have hminW : ¬ (listMinQ nodeWeights < 0) := by
    have h3 := (foldl_min_spec nodeWeights (nodeWeights.headD 0)).2.2
    rcases h3 with he | hm
    · rw [listMinQ, he]
      exact not_lt.mpr (hnn _ (headD_mem nodeWeights hwne 0))
    · exact not_lt.mpr (hnn _ hm)
  have hmaxK : ¬ (k ≤ part.foldl max (part.headD 0)) := by
    have h3 := (foldl_max_spec part (part.headD 0)).2.2
    rcases h3 with he | hm
    · rw [he]
      by_cases hp : part = []
      · subst hp; simp; omega
      · exact not_le.mpr (hids _ (headD_mem part hp 0))
    · exact not_le.mpr (hids _ hm)
  -- identify the weight function and the block-weight vector
  have hwfun : (fun i => if (nodeWeights.length ≠ 0) then nodeWeights.getD i 0 else 1)
      = fun i => nodeWeights.getD i 0 := by
    funext i; rw [if_pos hwlen]
  set wq : Nat → ℚ := fun i => nodeWeights.getD i 0 with hwq
  have hsublen : (accumulateBlockWeights part wq k).length = k :=
    accumulateBlockWeights_length part wq k
  have hsubne : accumulateBlockWeights part wq k ≠ [] := by
    intro h
    rw [h] at hsublen
    simp at hsublen
    omega
  -- the maximum block weight is attained at some block index b < k
  have hmax := foldl_max_spec (accumulateBlockWeights part wq k)
    ((accumulateBlockWeights part wq k).headD 0)
  have hattain : listMaxQ (accumulateBlockWeights part wq k)
      ∈ accumulateBlockWeights part wq k := by
    rcases hmax.2.2 with he | hm
    · rw [listMaxQ, he]; exact headD_mem _ hsubne 0
    · exact hm
  obtain ⟨b, hblt, hbval⟩ := List.mem_iff_getElem.mp hattain
  have hblt2 : b < k := by rw [hsublen] at hblt; exact hblt
  refine ⟨b, hblt2, ?_, ?_⟩
  · -- evaluate computeImbalance down the non-error path
    have hbD : (accumulateBlockWeights part wq k).getD b 0
        = listMaxQ (accumulateBlockWeights part wq k) := by
      rw [List.getD_eq_getElem _ 0 hblt, hbval]
    have hbw : listMaxQ (accumulateBlockWeights part wq k) = blockWeightOf part wq b := by
      rw [← hbD]
      exact accumulateBlockWeights_getD part wq k hids b hblt2
    unfold computeImbalance
    simp only [hwfun]
    have hsimp : (nodeWeights.length ≠ 0) = True := eq_true hwlen
    simp only [hsimp, if_true]
    rw [if_neg hmaxW, if_neg hminW, if_neg hmaxK]
    rw [listSum_range_map wq, hbw]
  · intro c hck
    have hcD : (accumulateBlockWeights part wq k).getD c 0 = blockWeightOf part wq c :=
      accumulateBlockWeights_getD part wq k hids c hck
    have hcmem : (accumulateBlockWeights part wq k).getD c 0
        ∈ accumulateBlockWeights part wq k := by
      have hclt : c < (accumulateBlockWeights part wq k).length := by omega
      rw [List.getD_eq_getElem _ 0 hclt]
      exact List.getElem_mem hclt
    have := hmax.2.1 _ hcmem
    rw [hcD] at this
    calc blockWeightOf part wq c
        ≤ listMaxQ (accumulateBlockWeights part wq k) := this
      _ = blockWeightOf part wq b := by
          rw [← accumulateBlockWeights_getD part wq k hids b hblt2]
          rw [List.getD_eq_getElem _ 0 hblt, hbval]

/-- Claim C4, counterexample: with three unit weights and k = 2, the total
weight is 3, the claimed uniform target is 3/2 and the claimed imbalance of
partition [0,0,1] is (2 - 3/2)/(3/2) = 1/3, but computeImbalance rounds the
target up to ceil(3/2) = 2 and returns 0. -/
theorem computeImbalance_exact_target_cex :
    computeImbalance [0, 0, 1] 2 [1, 1, 1] = Except.ok 0 ∧
    blockWeightOf [0, 0, 1] (fun i => ([1, 1, 1] : List ℚ).getD i 0) 0 = 2 ∧
    (∀ c, c < 2 → blockWeightOf [0, 0, 1] (fun i => ([1, 1, 1] : List ℚ).getD i 0) c ≤ 2) ∧
    ((2 : ℚ) - 3 / 2) / (3 / 2) = 1 / 3 ∧
    (0 : ℚ) ≠ 1 / 3 := by
  have hceil : (⌈(3 : ℚ) / 2⌉ : ℤ) = 2 := by
    rw [Int.ceil_eq_iff]
    norm_num
  refine ⟨?_, ?_, ?_, by norm_num, by norm_num⟩
  · norm_num [computeImbalance, listMaxQ, listMinQ, accumulateBlockWeights,
      List.range_succ, List.replicate, hceil]
  · norm_num [blockWeightOf, Finset.sum_range_succ]
  · intro c hc
    interval_cases c
    · norm_num [blockWeightOf, Finset.sum_range_succ]
    · norm_num [blockWeightOf, Finset.sum_range_succ]

/-- Witness for computeImbalance_formula at a concrete input. -/
theorem computeImbalance_formula_witness :
    ∃ b, b < 2 ∧
      computeImbalance [0, 0, 1] 2 [1, 1, 1]
        = Except.ok ((blockWeightOf [0, 0, 1] (fun i => ([1, 1, 1] : List ℚ).getD i 0) b
            - ((Int.ceil ((∑ i ∈ Finset.range ([0, 0, 1] : List Nat).length,
                ([1, 1, 1] : List ℚ).getD i 0) / ((2 : Nat) : ℚ)) : ℤ) : ℚ))
          / ((Int.ceil ((∑ i ∈ Finset.range ([0, 0, 1] : List Nat).length,
                ([1, 1, 1] : List ℚ).getD i 0) / ((2 : Nat) : ℚ)) : ℤ) : ℚ)) ∧
      ∀ c, c < 2 → blockWeightOf [0, 0, 1] (fun i => ([1, 1, 1] : List ℚ).getD i 0) c
        ≤ blockWeightOf [0, 0, 1] (fun i => ([1, 1, 1] : List ℚ).getD i 0) b :=
  computeImbalance_formula [0, 0, 1] 2 [1, 1, 1] (by norm_num)
    (by rfl)
    (⟨1, by simp, by norm_num⟩)
    (by intro x hx; simp at hx; subst hx; norm_num)
    (by intro i hi; simp at hi; rcases hi with h | h <;> omega)

/-- Claim C7, amended: the main loop of KMeans::computePartition executes at
most max(samplingRounds, maxKMeansIterations, 1) iterations (it can exceed
maxKMeansIterations while sampling rounds remain, and runs at least once
because it is a do-while loop), the balance loop of assignBlocks executes at
most max(balanceIterations, 1) iterations, and both loops terminate: their
iteration counts are stable in the fuel once the fuel reaches the bound. -/
theorem kmeansLoopIterationBounds (samplingRounds maxIterations balanceIterations : Nat)
    (needMoreWork allWeightsBalanced : Nat → Bool) :
    kmeansMainLoopIters samplingRounds maxIterations needMoreWork
      ≤ max (max samplingRounds maxIterations) 1 ∧
    (∀ fuel, max samplingRounds maxIterations ≤ fuel →
      doWhileIters (kmeansMainLoopCond samplingRounds maxIterations needMoreWork) fuel
        = kmeansMainLoopIters samplingRounds maxIterations needMoreWork) ∧
    balanceLoopIters balanceIterations allWeightsBalanced ≤ max balanceIterations 1 ∧
    (∀ fuel, balanceIterations ≤ fuel →
      doWhileIters (balanceLoopCond balanceIterations allWeightsBalanced) fuel
        = balanceLoopIters balanceIterations allWeightsBalanced) := by
  have hm := kmeansMainLoopCond_false samplingRounds maxIterations needMoreWork
  have hb := balanceLoopCond_false balanceIterations allWeightsBalanced
  refine ⟨?_, ?_, ?_, ?_⟩
  · exact doWhileAux_le _ _ hm (max samplingRounds maxIterations) 0
  · intro fuel hf
    exact doWhileAux_stable _ _ hm fuel (max samplingRounds maxIterations) 0
      (by omega) (by omega)
  · exact doWhileAux_le _ _ hb balanceIterations 0
  · intro fuel hf
    exact doWhileAux_stable _ _ hb fuel balanceIterations 0 (by omega) (by omega)

/-- Claim C7, counterexample: with samplingRounds = 2 (as produced for
globalN = 2 * minSamplingNodes * k, where ceil(log2 2) + 1 = 2) and
maxKMeansIterations = 1, the main loop runs 2 > 1 iterations regardless of
the convergence tests; and with balanceIterations = 0 the do-while balance
loop still runs once. -/
theorem kmeansIterationCap_cex :
    kmeansMainLoopIters 2 1 (fun _ => false) = 2 ∧
    ¬ (kmeansMainLoopIters 2 1 (fun _ => false) ≤ 1) ∧
    balanceLoopIters 0 (fun _ => false) = 1 ∧
    ¬ (balanceLoopIters 0 (fun _ => false) ≤ 0) := by
  decide

/-- Witness for kmeansLoopIterationBounds at concrete parameters. -/
theorem kmeansLoopIterationBounds_witness :
    kmeansMainLoopIters 2 3 (fun _ => true) ≤ 3 ∧
    doWhileIters (kmeansMainLoopCond 2 3 (fun _ => true)) 7 = kmeansMainLoopIters 2 3 (fun _ => true) ∧
    balanceLoopIters 4 (fun it => decide (2 ≤ it)) ≤ 4 ∧
    doWhileIters (balanceLoopCond 4 (fun it => decide (2 ≤ it))) 9
      = balanceLoopIters 4 (fun it => decide (2 ≤ it)) := by
  have h := kmeansLoopIterationBounds 2 3 4 (fun _ => true) (fun it => decide (2 ≤ it))
  exact ⟨h.1, h.2.1 7 (by norm_num), h.2.2.1, h.2.2.2 9 (by norm_num)⟩

/-! ## GraphUtils::computeCut (src/GraphUtils.cpp:84-163) and
GraphUtils::computeCommVolume (src/GraphUtils.cpp:538-612)

The CSR storage is modelled by its ia/ja/values arrays.  The embedding
models the replicated / one-process situation, in which every row is local
and every neighbour looked up through the partition vector directly (the
halo branch of the source performs the identical lookup for rows owned by
another process).  Distributions are modelled by the list of owned global
indices, which determines them; two distributions are equal exactly when
those lists are equal, and the local size is the length of the list. -/

/-- CSR storage: row offsets, column indices, edge values. -/
structure CSRStorage where
  ia : List Nat
  ja : List Nat
  values : List ℚ

/-- Local number of rows of a CSR storage. -/
def csrLocalN (g : CSRStorage) : Nat := g.ia.length - 1

/-- Positions of row i inside ja/values. -/
def rowRange (g : CSRStorage) (i : Nat) : Finset Nat :=
  Finset.Ico (g.ia.getD i 0) (g.ia.getD (i + 1) 0)

/-- The value added for position p of ja: the edge weight if weighted, else 1. -/
def edgeTermWeight (g : CSRStorage) (weighted : Bool) (p : Nat) : ℚ :=
  if weighted then g.values.getD p 0 else 1

/-- The local double-counted cut sum of computeCut: for every local row i and
every stored neighbour with a different block, add the edge term. -/
def cutSumLocal (g : CSRStorage) (part : List Nat) (weighted : Bool) : ℚ :=
  ∑ i ∈ Finset.range (csrLocalN g), ∑ p ∈ rowRange g i,
    if part.getD (g.ja.getD p 0) 0 ≠ part.getD i 0 then edgeTermWeight g weighted p else 0

/-- GraphUtils::computeCut: checks that the partition has as many local
values as the matrix has local rows, then returns half the double-counted
sum (each edge is counted from both sides). -/
def computeCut (g : CSRStorage) (part : List Nat) (weighted : Bool) : Except String ℚ :=
  if part.length ≠ csrLocalN g then
    Except.error ("partition has a different number of local values than the matrix")
  else
    Except.ok (cutSumLocal g part weighted / 2)

/-- Total stored weight of the (directed) entry (i, j): sum of the edge
terms over all positions of row i whose column index is j. -/
def entryWeight (g : CSRStorage) (weighted : Bool) (i j : Nat) : ℚ :=
  ∑ p ∈ (rowRange g i).filter (fun p => g.ja.getD p 0 = j), edgeTermWeight g weighted p

/-- The graph is symmetric: entry (i,j) and entry (j,i) carry the same
total weight. -/
def CSRSymmetric (g : CSRStorage) (weighted : Bool) : Prop :=
  ∀ i j, entryWeight g weighted i j = entryWeight g weighted j i

/-- The cut counted once per undirected edge: each unordered pair i < j of
rows in different blocks contributes its entry weight once. -/
def undirectedCutValue (g : CSRStorage) (part : List Nat) (weighted : Bool) : ℚ :=
  ∑ i ∈ Finset.range (csrLocalN g), ∑ j ∈ Finset.range (csrLocalN g),
    if i < j ∧ part.getD i 0 ≠ part.getD j 0 then entryWeight g weighted i j else 0

theorem row_regroup (g : CSRStorage) (weighted : Bool) (i n : Nat) (φ : Nat → ℚ)
    (hja : ∀ p ∈ rowRange g i, g.ja.getD p 0 < n) :
    (∑ p ∈ rowRange g i, edgeTermWeight g weighted p * φ (g.ja.getD p 0))
      = ∑ j ∈ Finset.range n, entryWeight g weighted i j * φ j := by
  rw [← Finset.sum_fiberwise_of_maps_to (g := fun p => g.ja.getD p 0)
    (fun p hp => Finset.mem_range.mpr (hja p hp))]
  apply Finset.sum_congr rfl
  intro j _
  rw [entryWeight, Finset.sum_mul]
  apply Finset.sum_congr rfl
  intro p hp
  have := (Finset.mem_filter.mp hp).2
  rw [this]

theorem sym_double_sum (n : Nat) (F : Nat → Nat → ℚ)
    (hsym : ∀ i j, F i j = F j i) (hdiag : ∀ i, F i i = 0) :
    (∑ i ∈ Finset.range n, ∑ j ∈ Finset.range n, F i j)
      = 2 * ∑ i ∈ Finset.range n, ∑ j ∈ Finset.range n,
          (if i < j then F i j else 0) := by
  have hsplit : ∀ i j : Nat, F i j =
      (if i < j then F i j else 0) + (if j < i then F i j else 0) := by
    intro i j
    rcases lt_trichotomy i j with h | h | h
    · rw [if_pos h, if_neg (by omega)]; ring
    · subst h
      rw [if_neg (by omega), hdiag]
      ring
    · rw [if_neg (by omega), if_pos h]; ring
  calc (∑ i ∈ Finset.range n, ∑ j ∈ Finset.range n, F i j)
      = (∑ i ∈ Finset.range n, ∑ j ∈ Finset.range n,
          ((if i < j then F i j else 0) + (if j < i then F i j else 0))) := by
        apply Finset.sum_congr rfl; intro i _
        apply Finset.sum_congr rfl; intro j _
        exact hsplit i j
    _ = (∑ i ∈ Finset.range n, ∑ j ∈ Finset.range n, (if i < j then F i j else 0))
        + (∑ i ∈ Finset.range n, ∑ j ∈ Finset.range n, (if j < i then F i j else 0)) := by
        rw [← Finset.sum_add_distrib]
        apply Finset.sum_congr rfl; intro i _
        rw [← Finset.sum_add_distrib]
    _ = 2 * ∑ i ∈ Finset.range n, ∑ j ∈ Finset.range n, (if i < j then F i j else 0) := by
        have hswap : (∑ i ∈ Finset.range n, ∑ j ∈ Finset.range n, (if j < i then F i j else 0))
            = (∑ i ∈ Finset.range n, ∑ j ∈ Finset.range n, (if i < j then F i j else 0)) := by
          rw [Finset.sum_comm]
          apply Finset.sum_congr rfl; intro i _
          apply Finset.sum_congr rfl; intro j _
          by_cases h : i < j
          · rw [if_pos h, if_pos h, hsym]
          · rw [if_neg h, if_neg h]
        rw [hswap]; ring

/-- Claim C3: on a symmetric graph whose stored column indices are all valid
local rows, computeCut returns half of the sum, over all stored (directed)
edges whose endpoints lie in different blocks, of the edge weight (or 1 when
unweighted), and this equals the cut in which each undirected cut edge
contributes exactly once. -/
theorem computeCut_symmetric_halving (g : CSRStorage) (part : List Nat) (weighted : Bool)
    (hlen : part.length = csrLocalN g)
    (hja : ∀ i, i < csrLocalN g → ∀ p ∈ rowRange g i, g.ja.getD p 0 < csrLocalN g)
    (hsym : CSRSymmetric g weighted) :
    computeCut g part weighted = Except.ok (cutSumLocal g part weighted / 2) ∧
    cutSumLocal g part weighted / 2 = undirectedCutValue g part weighted := by
  constructor
  · rw [computeCut, if_neg (by omega)]
  · set n := csrLocalN g with hn
    have hstep : cutSumLocal g part weighted
        = ∑ i ∈ Finset.range n, ∑ j ∈ Finset.range n,
            entryWeight g weighted i j
              * (if part.getD j 0 ≠ part.getD i 0 then 1 else 0) := by
      rw [cutSumLocal]
      apply Finset.sum_congr rfl
      intro i hi
      rw [← row_regroup g weighted i n
        (fun j => if part.getD j 0 ≠ part.getD i 0 then 1 else 0)
        (hja i (Finset.mem_range.mp hi))]
      apply Finset.sum_congr rfl
      intro p _
      by_cases h : part.getD (g.ja.getD p 0) 0 ≠ part.getD i 0
      · rw [if_pos h, if_pos h]; ring
      · rw [if_neg h, if_neg h]; ring
    have hF := sym_double_sum n
      (fun i j => entryWeight g weighted i j * (if part.getD j 0 ≠ part.getD i 0 then 1 else 0))
      (by
        intro i j
        simp only
        rw [hsym i j]
        by_cases h : part.getD j 0 = part.getD i 0
        · rw [if_neg (fun hc => hc h), if_neg (fun hc => hc h.symm)]
        · rw [if_pos h, if_pos (fun hc => h hc.symm)])
      (by intro i; simp)
    rw [hstep, hF]
    rw [undirectedCutValue]
    have : (∑ i ∈ Finset.range n, ∑ j ∈ Finset.range n,
        (if i < j then entryWeight g weighted i j
            * (if part.getD j 0 ≠ part.getD i 0 then 1 else 0) else 0))
        = ∑ i ∈ Finset.range n, ∑ j ∈ Finset.range n,
          (if i < j ∧ part.getD i 0 ≠ part.getD j 0 then entryWeight g weighted i j else 0) := by
      apply Finset.sum_congr rfl; intro i _
      apply Finset.sum_congr rfl; intro j _
      by_cases h1 : i < j
      · by_cases h2 : part.getD j 0 = part.getD i 0
        · rw [if_pos h1, if_neg (fun hc => hc h2), if_neg (fun hc => hc.2 h2.symm)]
          ring
        · rw [if_pos h1, if_pos h2, if_pos ⟨h1, fun hc => h2 hc.symm⟩]
          ring
      · rw [if_neg h1, if_neg (fun hc => h1 hc.1)]
    rw [this]
    ring

/-- Witness for computeCut_symmetric_halving: a 2-node graph with one
undirected unit edge crossing the partition; the cut is 1. -/
theorem computeCut_symmetric_halving_witness :
    computeCut ⟨[0, 1, 2], [1, 0], [1, 1]⟩ [0, 1] true
      = Except.ok (cutSumLocal ⟨[0, 1, 2], [1, 0], [1, 1]⟩ [0, 1] true / 2) ∧
    cutSumLocal ⟨[0, 1, 2], [1, 0], [1, 1]⟩ [0, 1] true / 2
      = undirectedCutValue ⟨[0, 1, 2], [1, 0], [1, 1]⟩ [0, 1] true :=
  computeCut_symmetric_halving ⟨[0, 1, 2], [1, 0], [1, 1]⟩ [0, 1] true
    (by rfl)
    (by decide)
    (by
      intro i j
      unfold entryWeight rowRange edgeTermWeight
      rcases i with _ | _ | i <;> rcases j with _ | _ | j <;>
        simp [csrLocalN, Finset.sum_ite_eq, List.getD] <;> rfl)

/-- List of positions of row i, ascending, for loops that need a definite
iteration order. -/
def rowPositions (g : CSRStorage) (i : Nat) : List Nat :=
  (List.range (g.ia.getD (i + 1) 0 - g.ia.getD i 0)).map (fun t => g.ia.getD i 0 + t)

/-- The inner loop of computeCommVolume for one local node: walk the CSR row
and count every neighbour block different from the node's own block the
first time it is seen (the std::set insertion of the source). -/
def rowDistinctForeignBlocks (g : CSRStorage) (partLookup : Nat → Nat)
    (thisBlock : Nat) (i : Nat) : Nat :=
  (((rowPositions g i).foldl
    (fun (acc : List Nat × Nat) p =>
      let neighborBlock := partLookup (g.ja.getD p 0)
      if neighborBlock ≠ thisBlock then
        if neighborBlock ∈ acc.1 then acc else (neighborBlock :: acc.1, acc.2 + 1)
      else acc)
    ([], 0))).2

/-- GraphUtils::computeCommVolume: rejects unequal distributions of the
matrix and the partition, then accumulates per source block the number of
distinct other blocks hit by each local node's neighbours.  A distribution
is modelled by its list of owned global indices; the embedding is the
replicated case, in which a global index is its own local index. -/
def computeCommVolume (g : CSRStorage) (adjDist : List Nat) (part : List Nat)
    (partDist : List Nat) (numBlocks : Nat) : Except String (List Nat) :=
  if adjDist ≠ partDist then
    Except.error ("Distributions: should be equal.")
  else
    Except.ok ((List.range (csrLocalN g)).foldl
      (fun vol i =>
        let thisBlock := part.getD i 0
        vol.set thisBlock
          (vol.getD thisBlock 0 + rowDistinctForeignBlocks g (fun gi => part.getD gi 0) thisBlock i))
      (List.replicate (numBlocks + 1) 0))

/-- Claim C8: whenever the row distribution of the graph and the
distribution of the partition disagree on the local size, computeCut and
computeCommVolume fail with an error and compute no result.  The
distributions of graph and partition are given by their owned index lists,
whose lengths are the local sizes of the matrix rows and of the partition
vector. -/
theorem wrongDistribution_rejected (g : CSRStorage) (adjDist partDist part : List Nat)
    (numBlocks : Nat) (weighted : Bool)
    (hA : adjDist.length = csrLocalN g)
    (hP : partDist.length = part.length)
    (hmismatch : part.length ≠ csrLocalN g) :
    (∃ e, computeCut g part weighted = Except.error e) ∧
    (∃ e, computeCommVolume g adjDist part partDist numBlocks = Except.error e) := by
  constructor
  · refine ⟨"partition has a different number of local values than the matrix", ?_⟩
    rw [computeCut, if_pos hmismatch]
  · refine ⟨"Distributions: should be equal.", ?_⟩
    have hne : adjDist ≠ partDist := by
      intro he
      apply hmismatch
      rw [← hP, ← he, hA]
    rw [computeCommVolume, if_pos hne]

/-- Witness for wrongDistribution_rejected: one matrix row but a two-entry
partition. -/
theorem wrongDistribution_rejected_witness :
    (∃ e, computeCut ⟨[0, 0], [], []⟩ [0, 0] true = Except.error e) ∧
    (∃ e, computeCommVolume ⟨[0, 0], [], []⟩ [0] [0, 0] [0, 1] 1 = Except.error e) :=
  wrongDistribution_rejected ⟨[0, 0], [], []⟩ [0] [0, 1] [0, 0] 1 true
    (by rfl) (by rfl) (by decide)

/-! ## GraphUtils::nonLocalNeighbors and GraphUtils::getPEGraph
(src/GraphUtils.cpp:270-297 and 1019-1059)

getPEGraph(adjM) computes, on each process, that process's single row of the
process-by-process graph: the sorted distinct owners of the non-local column
indices referenced by local rows, with every edge value set to 1
(`LArray<ValueType> values(numNeighbors, 1)` in the source).  The embedding
computes that row for one process, with the ownership map of the row
distribution given as a function. -/

/-- GraphUtils::nonLocalNeighbors: the set of column indices referenced by
local rows that are not locally owned (std::set semantics). -/
def nonLocalNeighborsF (g : CSRStorage) (isLocal : Nat → Bool) : Finset Nat :=
  (Finset.range (csrLocalN g)).biUnion
    (fun i => ((rowRange g i).image (fun p => g.ja.getD p 0)).filter
      (fun v => isLocal v = false))

/-- One process's row of getPEGraph(adjM): ja = sorted distinct owners of
the non-local neighbours, values = all ones. -/
def getPEGraphRow (g : CSRStorage) (owner : Nat → Nat) (myRank : Nat) :
    List Nat × List ℚ :=
  let nonLocalIndices := nonLocalNeighborsF g (fun v => decide (owner v = myRank))
  let neighborPEs := (nonLocalIndices.image owner).sort (· ≤ ·)
  (neighborPEs, List.replicate neighborPEs.length 1)

/-- Number of stored column occurrences in local rows whose column index is
owned by process q (what the claim calls the number of such occurrences). -/
def ownedColumnOccurrences (g : CSRStorage) (owner : Nat → Nat) (q : Nat) : Nat :=
  ∑ i ∈ Finset.range (csrLocalN g),
    ((rowRange g i).filter (fun p => owner (g.ja.getD p 0) = q)).card

/-- Claim C9, amended: in the PE graph built from the adjacency matrix, the
row of process p has an edge to process q exactly when some local row of p
stores a non-local column index owned by q (so q ≠ p: local columns create
no self-edge), and every edge weight equals 1 — not the number of
occurrences. -/
theorem getPEGraphRow_spec (g : CSRStorage) (owner : Nat → Nat) (myRank : Nat) :
    (∀ q, q ∈ (getPEGraphRow g owner myRank).1 ↔
      (q ≠ myRank ∧ ∃ i, i < csrLocalN g ∧ ∃ p ∈ rowRange g i, owner (g.ja.getD p 0) = q)) ∧
    (∀ x ∈ (getPEGraphRow g owner myRank).2, x = (1 : ℚ)) := by
  have h1 : (getPEGraphRow g owner myRank).1
      = ((nonLocalNeighborsF g (fun v => decide (owner v = myRank))).image owner).sort (· ≤ ·) :=
    rfl
  have h2 : (getPEGraphRow g owner myRank).2
      = List.replicate ((getPEGraphRow g owner myRank).1).length (1 : ℚ) := rfl
  constructor
  · intro q
    rw [h1, Finset.mem_sort]
    constructor
    · intro hq
      obtain ⟨v, hvNL, hvq⟩ := Finset.mem_image.mp hq
      obtain ⟨i, hiR, hvF⟩ := Finset.mem_biUnion.mp hvNL
      have hvf := Finset.mem_filter.mp hvF
      obtain ⟨p, hp, hpv⟩ := Finset.mem_image.mp hvf.1
      have hnl : decide (owner v = myRank) = false := hvf.2
      have hnl2 : owner v ≠ myRank := by
        intro hc; rw [hc] at hnl; simp at hnl
      refine ⟨?_, i, Finset.mem_range.mp hiR, p, hp, by rw [hpv, hvq]⟩
      rw [← hvq]
      exact hnl2
    · rintro ⟨hq, i, hi, p, hp, hpq⟩
      apply Finset.mem_image.mpr
      refine ⟨g.ja.getD p 0, ?_, hpq⟩
      apply Finset.mem_biUnion.mpr
      refine ⟨i, Finset.mem_range.mpr hi, ?_⟩
      apply Finset.mem_filter.mpr
      refine ⟨Finset.mem_image.mpr ⟨p, hp, rfl⟩, ?_⟩
      rw [decide_eq_false_iff_not]
      intro hloc
      rw [hloc] at hpq
      exact hq hpq.symm
  · intro x hx
    rw [h2] at hx
    exact (List.mem_replicate.mp hx).2

/-- Claim C9, counterexample: rank 0 owns global rows 0 and 1 (owner = 0 for
indices < 2, else 1).  Row 0 stores columns 1 and 2, row 1 stores columns 2
and 3.  There are 3 stored occurrences of columns owned by process 1, yet
the produced edge value is 1; and row 0 stores column 1, which process 0
owns, yet no edge (0,0) exists. -/
theorem getPEGraphRow_cex :
    getPEGraphRow ⟨[0, 2, 4], [1, 2, 2, 3], [1, 1, 1, 1]⟩
        (fun v => if v < 2 then 0 else 1) 0 = ([1], [1]) ∧
    ownedColumnOccurrences ⟨[0, 2, 4], [1, 2, 2, 3], [1, 1, 1, 1]⟩
        (fun v => if v < 2 then 0 else 1) 1 = 3 ∧
    ownedColumnOccurrences ⟨[0, 2, 4], [1, 2, 2, 3], [1, 1, 1, 1]⟩
        (fun v => if v < 2 then 0 else 1) 0 = 1 ∧
    (0 : Nat) ∉ (getPEGraphRow ⟨[0, 2, 4], [1, 2, 2, 3], [1, 1, 1, 1]⟩
        (fun v => if v < 2 then 0 else 1) 0).1 ∧
    ((1 : ℚ) ≠ 3) := by
  have himg : ((nonLocalNeighborsF ⟨[0, 2, 4], [1, 2, 2, 3], [1, 1, 1, 1]⟩
      (fun v => decide ((if v < 2 then (0 : Nat) else 1) = 0))).image
        (fun v => if v < 2 then (0 : Nat) else 1)) = {1} := by decide
  have hfst : (getPEGraphRow ⟨[0, 2, 4], [1, 2, 2, 3], [1, 1, 1, 1]⟩
      (fun v => if v < 2 then 0 else 1) 0).1 = [1] := by
    have h1 : (getPEGraphRow ⟨[0, 2, 4], [1, 2, 2, 3], [1, 1, 1, 1]⟩
        (fun v => if v < 2 then 0 else 1) 0).1
        = ((nonLocalNeighborsF ⟨[0, 2, 4], [1, 2, 2, 3], [1, 1, 1, 1]⟩
            (fun v => decide ((if v < 2 then (0 : Nat) else 1) = 0))).image
              (fun v => if v < 2 then (0 : Nat) else 1)).sort (· ≤ ·) := rfl
    rw [h1, himg]
    exact Finset.sort_singleton _ 1
  have hsnd : (getPEGraphRow ⟨[0, 2, 4], [1, 2, 2, 3], [1, 1, 1, 1]⟩
      (fun v => if v < 2 then 0 else 1) 0).2 = [1] := by
    have h2 : (getPEGraphRow ⟨[0, 2, 4], [1, 2, 2, 3], [1, 1, 1, 1]⟩
        (fun v => if v < 2 then 0 else 1) 0).2
        = List.replicate (getPEGraphRow ⟨[0, 2, 4], [1, 2, 2, 3], [1, 1, 1, 1]⟩
            (fun v => if v < 2 then 0 else 1) 0).1.length (1 : ℚ) := rfl
    rw [h2, hfst]
    rfl
  refine ⟨?_, by decide, by decide, ?_, by norm_num⟩
  · rw [Prod.ext_iff]
    exact ⟨hfst, hsnd⟩
  · rw [hfst]
    decide

/-! ## KMeans::findCenters (src/src/KMeans.cpp:415-506) and the empty-center
reset of KMeans::computePartition (src/src/KMeans.cpp:1442-1448)

ValueType is a double here and NaN matters: findCenters explicitly writes
NAN into the per-weight center of a block whose global weight is zero, and
computePartition tests std::isnan on coordinate 0 of each averaged center to
decide whether to keep the previous center.  The embedding models a double
as Option ℚ where none stands for NaN: addition and multiplication
propagate none, and division by zero yields none.  (In the source the only
divisions are by a local block weight sum, guarded so they are read only
when that sum is nonzero, and by the global weight sum, guarded by the
explicit NAN override; so none-on-division-by-zero is only exercised where
the double code also produces a non-finite value that is immediately
overridden.)  The cross-process reductions are modelled by explicit sums
over a list of per-process point sets. -/

/-- NaN-propagating addition. -/
def nAdd : Option ℚ → Option ℚ → Option ℚ
  | some a, some b => some (a + b)
  | _, _ => none

/-- NaN-propagating multiplication. -/
def nMul : Option ℚ → Option ℚ → Option ℚ
  | some a, some b => some (a * b)
  | _, _ => none

/-- NaN-propagating division; division by zero gives none. -/
def nDiv : Option ℚ → Option ℚ → Option ℚ
  | some a, some b => if b = 0 then none else some (a / b)
  | _, _ => none

/-- One sampled point as findCenters sees it: its current block, its weights
(one per weight index), and its coordinates. -/
structure SamplePoint where
  part : Nat
  w : List ℚ
  x : List ℚ

/-- Local weight sum of block j for weight index wIdx on one process
(the first loop of findCenters). -/
def fcWeightSum (pts : List SamplePoint) (wIdx j : Nat) : ℚ :=
  (pts.map (fun pt => if pt.part = j then pt.w.getD wIdx 0 else 0)).sum

/-- Global weight sum of block j for weight index wIdx (comm->sumImpl over
the local weight sums). -/
def fcTotalWeight (procs : List (List SamplePoint)) (wIdx j : Nat) : ℚ :=
  (procs.map (fun pts => fcWeightSum pts wIdx j)).sum

/-- The local center accumulation of findCenters for dimension d and block
j: result[d][part] += coord * weight / weightSum[part]. -/
def fcLocalCenterSum (pts : List SamplePoint) (wIdx d j : Nat) : Option ℚ :=
  pts.foldl
    (fun acc pt =>
      if pt.part = j then
        nAdd acc (nDiv (some (pt.x.getD d 0 * pt.w.getD wIdx 0)) (some (fcWeightSum pts wIdx j)))
      else acc)
    (some 0)

/-- One process's contribution to the global center of block j for weight
wIdx and dimension d: weightedCoord = (weightSum == 0 ? 0 :
result * weightSum/totalWeight), overridden by the explicit NAN when the
global weight of the block is zero. -/
def fcProcContribution (procs : List (List SamplePoint)) (pts : List SamplePoint)
    (wIdx d j : Nat) : Option ℚ :=
  if fcTotalWeight procs wIdx j = 0 then none
  else if fcWeightSum pts wIdx j = 0 then some 0
  else nMul (fcLocalCenterSum pts wIdx d j)
    (nDiv (some (fcWeightSum pts wIdx j)) (some (fcTotalWeight procs wIdx j)))

/-- The per-weight center of block j in dimension d after the cross-process
sum (comm->sumImpl of the per-process weighted coordinates). -/
def fcCenterForWeight (procs : List (List SamplePoint)) (wIdx d j : Nat) : Option ℚ :=
  (procs.map (fun pts => fcProcContribution procs pts wIdx d j)).foldl nAdd (some 0)

/-- KMeans::findCenters, final averaging: the centers of all weight indices
are averaged, each term divided by numWeights inside the loop. -/
def findCenters (procs : List (List SamplePoint)) (numWeights d j : Nat) : Option ℚ :=
  ((List.range numWeights).map
    (fun wIdx => nDiv (fcCenterForWeight procs wIdx d j) (some (numWeights : ℚ)))).foldl
    nAdd (some 0)

/-- The empty-center reset of computePartition: for each block j, if
coordinate 0 of the averaged transposed center is NaN, the whole center is
replaced by the previous center of block j (row j of centers1DVector). -/
def newCentersAfterReset (procs : List (List SamplePoint)) (numWeights dim k : Nat)
    (oldCenters : List (List ℚ)) : List (List (Option ℚ)) :=
  (List.range k).map
    (fun j =>
      if findCenters procs numWeights 0 j = none then (oldCenters.getD j []).map some
      else (List.range dim).map (fun d => findCenters procs numWeights d j))

theorem nAdd_eq_none (a b : Option ℚ) : nAdd a b = none ↔ a = none ∨ b = none := by
  cases a <;> cases b <;> simp [nAdd]

theorem foldl_nAdd_eq_none (l : List (Option ℚ)) :
    ∀ acc, (l.foldl nAdd acc = none ↔ acc = none ∨ none ∈ l) := by
  induction l with
  | nil => intro acc; simp
  | cons a t ih =>
    intro acc
    rw [List.foldl_cons, ih (nAdd acc a)]
    rw [nAdd_eq_none]
    constructor
    · rintro ((h | h) | h)
      · exact Or.inl h
      · exact Or.inr (by rw [← h]; exact List.mem_cons_self a t)
      · exact Or.inr (List.mem_cons_of_mem a h)
    · rintro (h | h)
      · exact Or.inl (Or.inl h)
      · rcases List.mem_cons.mp h with h2 | h2
        · exact Or.inl (Or.inr h2.symm)
        · exact Or.inr h2

theorem fcLocalCenterSum_ne_none (pts : List SamplePoint) (wIdx d j : Nat)
    (hws : fcWeightSum pts wIdx j ≠ 0) :
    fcLocalCenterSum pts wIdx d j ≠ none := by
  rw [fcLocalCenterSum]
  suffices h : ∀ (l : List SamplePoint) (acc : Option ℚ), acc ≠ none →
      l.foldl (fun acc pt =>
        if pt.part = j then
          nAdd acc (nDiv (some (pt.x.getD d 0 * pt.w.getD wIdx 0)) (some (fcWeightSum pts wIdx j)))
        else acc) acc ≠ none by
    exact h pts (some 0) (by simp)
  intro l
  induction l with
  | nil => intro acc hacc; exact hacc
  | cons pt t ih =>
    intro acc hacc
    rw [List.foldl_cons]
    by_cases hp : pt.part = j
    · rw [if_pos hp]
      apply ih
      rw [Ne, nAdd_eq_none]
      rintro (h | h)
      · exact hacc h
      · rw [nDiv, if_neg hws] at h
        exact Option.noConfusion h
    · rw [if_neg hp]
      exact ih acc hacc

theorem fcProcContribution_none_iff (procs : List (List SamplePoint))
    (pts : List SamplePoint) (wIdx d j : Nat) :
    (fcProcContribution procs pts wIdx d j = none ↔ fcTotalWeight procs wIdx j = 0) := by
  rw [fcProcContribution]
  by_cases ht : fcTotalWeight procs wIdx j = 0
  · rw [if_pos ht]; simp [ht]
  · rw [if_neg ht]
    by_cases hws : fcWeightSum pts wIdx j = 0
    · rw [if_pos hws]; simp [ht]
    · rw [if_neg hws]
      constructor
      · intro h
        exfalso
        have hl := fcLocalCenterSum_ne_none pts wIdx d j hws
        have hr : nDiv (some (fcWeightSum pts wIdx j)) (some (fcTotalWeight procs wIdx j))
            = some (fcWeightSum pts wIdx j / fcTotalWeight procs wIdx j) := by
          rw [nDiv, if_neg ht]
        rw [hr] at h
        rcases hx : fcLocalCenterSum pts wIdx d j with _ | v
        · exact hl hx
        · rw [hx, nMul] at h
          exact Option.noConfusion h
      · intro h; exact absurd h ht

theorem fcCenterForWeight_none_iff (procs : List (List SamplePoint)) (wIdx d j : Nat)
    (hne : procs ≠ []) :
    (fcCenterForWeight procs wIdx d j = none ↔ fcTotalWeight procs wIdx j = 0) := by
  rw [fcCenterForWeight, foldl_nAdd_eq_none]
  constructor
  · rintro (h | h)
    · exact absurd h (by simp)
    · obtain ⟨pts, _, hptn⟩ := List.mem_map.mp h
      exact (fcProcContribution_none_iff procs pts wIdx d j).mp hptn
  · intro h
    refine Or.inr ?_
    rcases procs with _ | ⟨pts, rest⟩
    · exact absurd rfl hne
    · refine List.mem_map.mpr ⟨pts, List.mem_cons_self pts rest, ?_⟩
      exact (fcProcContribution_none_iff (pts :: rest) pts wIdx d j).mpr h

theorem findCenters_none_iff (procs : List (List SamplePoint)) (numWeights d j : Nat)
    (hne : procs ≠ []) (hnw : 1 ≤ numWeights) :
    (findCenters procs numWeights d j = none
      ↔ ∃ wIdx, wIdx < numWeights ∧ fcTotalWeight procs wIdx j = 0) := by
  rw [findCenters, foldl_nAdd_eq_none]
  have hnz : ((numWeights : ℚ)) ≠ 0 := by
    have : (0 : ℚ) < (numWeights : ℚ) := by exact_mod_cast hnw
    exact ne_of_gt this
  constructor
  · rintro (h | h)
    · exact absurd h (by simp)
    · obtain ⟨wIdx, hwmem, hwn⟩ := List.mem_map.mp h
      refine ⟨wIdx, List.mem_range.mp hwmem, ?_⟩
      rw [← fcCenterForWeight_none_iff procs wIdx d j hne]
      rcases hx : fcCenterForWeight procs wIdx d j with _ | v
      · rfl
      · rw [hx, nDiv, if_neg hnz] at hwn
        exact absurd hwn.symm (by simp)
  · rintro ⟨wIdx, hwlt, hwz⟩
    refine Or.inr (List.mem_map.mpr ⟨wIdx, List.mem_range.mpr hwlt, ?_⟩)
    have := (fcCenterForWeight_none_iff procs wIdx d j hne).mpr hwz
    rw [this]
    rfl

/-- Claim C2: in every computePartition iteration, a block whose sampled
points contribute zero total weight (in every weight index) keeps the
center it had before the iteration, and the center array passed to the next
iteration contains no NaN coordinate. -/
theorem emptyBlock_keeps_center (procs : List (List SamplePoint))
    (numWeights dim k : Nat) (oldCenters : List (List ℚ))
    (hne : procs ≠ []) (hnw : 1 ≤ numWeights) :
    (∀ j, j < k →
      (∀ wIdx, wIdx < numWeights → fcTotalWeight procs wIdx j = 0) →
      (newCentersAfterReset procs numWeights dim k oldCenters).getD j []
        = (oldCenters.getD j []).map some) ∧
    (∀ j, j < k → ∀ e ∈ (newCentersAfterReset procs numWeights dim k oldCenters).getD j [],
      e ≠ none) := by
  have hrow : ∀ j, j < k → (newCentersAfterReset procs numWeights dim k oldCenters).getD j []
      = (if findCenters procs numWeights 0 j = none then (oldCenters.getD j []).map some
         else (List.range dim).map (fun d => findCenters procs numWeights d j)) := by
    intro j hjk
    rw [newCentersAfterReset]
    have hjlt : j < (List.range k).length := by simp [hjk]
    rw [List.getD_eq_getElem _ _ (by simpa using hjk)]
    simp
  constructor
  · intro j hjk hz
    rw [hrow j hjk, if_pos ?_]
    rw [findCenters_none_iff procs numWeights 0 j hne hnw]
    exact ⟨0, hnw, hz 0 hnw⟩
  · intro j hjk e he
    rw [hrow j hjk] at he
    by_cases h0 : findCenters procs numWeights 0 j = none
    · rw [if_pos h0] at he
      obtain ⟨q, _, hq⟩ := List.mem_map.mp he
      rw [← hq]
      simp
    · rw [if_neg h0] at he
      obtain ⟨d, _, hd⟩ := List.mem_map.mp he
      rw [← hd]
      intro hdn
      apply h0
      rw [findCenters_none_iff procs numWeights d j hne hnw] at hdn
      rw [findCenters_none_iff procs numWeights 0 j hne hnw]
      exact hdn

/-- Witness for emptyBlock_keeps_center: one process, one unit-weight point
in block 0, two blocks; block 1 is empty and keeps its old center, and no
center coordinate is NaN. -/
theorem emptyBlock_keeps_center_witness :
    (∀ j, j < 2 →
      (∀ wIdx, wIdx < 1 →
        fcTotalWeight [[⟨0, [1], [5]⟩]] wIdx j = 0) →
      (newCentersAfterReset [[⟨0, [1], [5]⟩]] 1 1 2 [[3], [4]]).getD j []
        = (([[3], [4]] : List (List ℚ)).getD j []).map some) ∧
    (∀ j, j < 2 → ∀ e ∈ (newCentersAfterReset [[⟨0, [1], [5]⟩]] 1 1 2 [[3], [4]]).getD j [],
      e ≠ none) :=
  emptyBlock_keeps_center [[⟨0, [1], [5]⟩]] 1 1 2 [[3], [4]]
    (by simp) (le_refl 1)

/-! ## KMeans::assignBlocks, per-point assignment (src/src/KMeans.cpp:679-789)

Effective distances and the distance bounds upperBoundOwnCenter /
lowerBoundNextCenter are doubles whose sentinel is
std::numeric_limits<double>::max(); the embedding models them as Option ℚ
with none standing for that sentinel: an unvisited bound larger than every
attained value.  The comparison `x < sentinel` is true for every attained
x, which the edLT order reproduces. -/

/-- Strict order on sentinel-extended distances: none is the DBL_MAX
sentinel, above every attained value. -/
def edLT : Option ℚ → Option ℚ → Bool
  | some a, some b => decide (a < b)
  | some _, none => true
  | none, _ => false

/-- Effective distance of point i to center j: squared euclidean distance
times the summed influence effect of the point's normalized weights
(src/src/KMeans.cpp:742-754; the same formula computes the distance to the
own center at lines 704-710). -/
def effectiveDistanceTo (coords centers influence normWeights : List (List ℚ))
    (dim numWeights i j : Nat) : ℚ :=
  (∑ d ∈ Finset.range dim,
    (((centers.getD j []).getD d 0) - ((coords.getD d []).getD i 0)) ^ 2)
  * (∑ w ∈ Finset.range numWeights,
      ((influence.getD w []).getD j 0) * ((normWeights.getD w []).getD i 0))

/-- State of the center scan loop of assignBlocks. -/
structure ScanState where
  bestBlock : Nat
  bestValue : Option ℚ
  secondBest : Nat
  secondBestValue : Option ℚ
  scanned : List Nat

/-- One executed iteration of the center scan (src/src/KMeans.cpp:739-767):
look up the center index at sorted position c, compute its effective
distance, and update best / second-best. -/
def scanStep (coords centers influence normWeights : List (List ℚ))
    (clusterIndices : List Nat) (dim numWeights i c : Nat) (st : ScanState) : ScanState :=
  let j := clusterIndices.getD c 0
  let effD := effectiveDistanceTo coords centers influence normWeights dim numWeights i j
  if edLT (some effD) st.bestValue then
    ⟨j, some effD, st.bestBlock, st.bestValue, st.scanned ++ [j]⟩
  else if edLT (some effD) st.secondBestValue then
    ⟨st.bestBlock, st.bestValue, j, some effD, st.scanned ++ [j]⟩
  else
    ⟨st.bestBlock, st.bestValue, st.secondBest, st.secondBestValue, st.scanned ++ [j]⟩

/-- The while loop at src/src/KMeans.cpp:735-768: scan center positions c
while c < rangeEnd and the sorted minimum effective distance is below the
current second-best value.  `scanned` records every center index examined. -/
def centerScan (coords centers influence normWeights : List (List ℚ))
    (clusterIndices : List Nat) (effectMinDist : List ℚ)
    (dim numWeights i rangeEnd : Nat) : Nat → Nat → ScanState → ScanState
  | 0, _, st => st
  | Nat.succ fuel, c, st =>
    if c < rangeEnd ∧ edLT (some (effectMinDist.getD c 0)) st.secondBestValue = true then
      centerScan coords centers influence normWeights clusterIndices effectMinDist
        dim numWeights i rangeEnd fuel (c + 1)
        (scanStep coords centers influence normWeights clusterIndices dim numWeights i c st)
    else st

/-- Result of the per-point assignment. -/
structure PointResult where
  assignment : Nat
  upper : Option ℚ
  lower : Option ℚ
  effOwn : ℚ
  scanned : List Nat

/-- The per-point body of the assignment loop (src/src/KMeans.cpp:679-789):
two triangle-bound skip tests, then a scan of the centers of the point's
father block, whose best center becomes the new assignment and whose best
and second-best effective distances become the new bounds.  In the
hierarchical (non-repartition) case the scanned positions are
[blockSizesPrefixSum[fatherBlock], blockSizesPrefixSum[fatherBlock+1]). -/
def assignPoint (coords centers influence normWeights : List (List ℚ))
    (clusterIndices : List Nat) (effectMinDist : List ℚ) (pSum : List Nat)
    (repartition : Bool) (dim numWeights i oldCluster fatherBlock : Nat)
    (ub lb : Option ℚ) : PointResult :=
  let influenceEffectOfOwn :=
    ∑ w ∈ Finset.range numWeights,
      ((influence.getD w []).getD oldCluster 0) * ((normWeights.getD w []).getD i 0)
  if edLT ub lb then
    -- lowerBoundNextCenter[i] > upperBoundOwnCenter[i]: assignment unchanged
    ⟨oldCluster, ub, lb, influenceEffectOfOwn, []⟩
  else
    let newEffectiveDistance :=
      effectiveDistanceTo coords centers influence normWeights dim numWeights i oldCluster
    if edLT (some newEffectiveDistance) lb then
      -- tightened upper bound still below the lower bound: unchanged
      ⟨oldCluster, some newEffectiveDistance, lb, influenceEffectOfOwn, []⟩
    else
      let rangeStart := if repartition then 0 else pSum.getD fatherBlock 0
      let rangeEnd := if repartition then pSum.getD (pSum.length - 1) 0
        else pSum.getD (fatherBlock + 1) 0
      let st := centerScan coords centers influence normWeights clusterIndices effectMinDist
        dim numWeights i rangeEnd (rangeEnd - rangeStart) rangeStart ⟨0, none, 0, none, []⟩
      ⟨st.bestBlock, st.bestValue, st.secondBestValue,
        ∑ w ∈ Finset.range numWeights,
          ((influence.getD w []).getD st.bestBlock 0) * ((normWeights.getD w []).getD i 0),
        st.scanned⟩

theorem edLT_some_none (x : ℚ) : edLT (some x) none = true := rfl

theorem scanStep_spec (coords centers influence normWeights : List (List ℚ))
    (clusterIndices : List Nat) (dim numWeights i rangeStart rangeEnd c : Nat) (st : ScanState)
    (hcr : rangeStart ≤ c) (hce : c < rangeEnd)
    (hperm : ∀ cc, rangeStart ≤ cc → cc < rangeEnd →
      rangeStart ≤ clusterIndices.getD cc 0 ∧ clusterIndices.getD cc 0 < rangeEnd)
    (hbest : st.bestValue ≠ none → rangeStart ≤ st.bestBlock ∧ st.bestBlock < rangeEnd)
    (hscan : ∀ j ∈ st.scanned, rangeStart ≤ j ∧ j < rangeEnd) :
    (scanStep coords centers influence normWeights clusterIndices dim numWeights i c st).bestValue
      ≠ none ∧
    (rangeStart ≤ (scanStep coords centers influence normWeights clusterIndices dim
        numWeights i c st).bestBlock ∧
      (scanStep coords centers influence normWeights clusterIndices dim
        numWeights i c st).bestBlock < rangeEnd) ∧
    (∀ j ∈ (scanStep coords centers influence normWeights clusterIndices dim
        numWeights i c st).scanned, rangeStart ≤ j ∧ j < rangeEnd) := by
  have hj := hperm c hcr hce
  rw [scanStep]
  by_cases h1 : edLT (some (effectiveDistanceTo coords centers influence normWeights dim
      numWeights i (clusterIndices.getD c 0))) st.bestValue = true
  · rw [if_pos h1]
    refine ⟨by simp, hj, ?_⟩
    intro j hjm
    rcases List.mem_append.mp hjm with h | h
    · exact hscan j h
    · rw [List.mem_singleton.mp h]; exact hj
  · have hbv : st.bestValue ≠ none := by
      intro hn
      apply h1
      rw [hn]
      exact edLT_some_none _
    rw [if_neg h1]
    by_cases h2 : edLT (some (effectiveDistanceTo coords centers influence normWeights dim
        numWeights i (clusterIndices.getD c 0))) st.secondBestValue = true
    · rw [if_pos h2]
      refine ⟨hbv, hbest hbv, ?_⟩
      intro j hjm
      rcases List.mem_append.mp hjm with h | h
      · exact hscan j h
      · rw [List.mem_singleton.mp h]; exact hj
    · rw [if_neg h2]
      refine ⟨hbv, hbest hbv, ?_⟩
      intro j hjm
      rcases List.mem_append.mp hjm with h | h
      · exact hscan j h
      · rw [List.mem_singleton.mp h]; exact hj

theorem centerScan_inv (coords centers influence normWeights : List (List ℚ))
    (clusterIndices : List Nat) (effectMinDist : List ℚ)
    (dim numWeights i rangeStart rangeEnd : Nat)
    (hperm : ∀ c, rangeStart ≤ c → c < rangeEnd →
      rangeStart ≤ clusterIndices.getD c 0 ∧ clusterIndices.getD c 0 < rangeEnd) :
    ∀ fuel c st, rangeStart ≤ c →
      (st.bestValue ≠ none → rangeStart ≤ st.bestBlock ∧ st.bestBlock < rangeEnd) →
      (∀ j ∈ st.scanned, rangeStart ≤ j ∧ j < rangeEnd) →
      ((centerScan coords centers influence normWeights clusterIndices effectMinDist
          dim numWeights i rangeEnd fuel c st).bestValue ≠ none →
        rangeStart ≤ (centerScan coords centers influence normWeights clusterIndices effectMinDist
          dim numWeights i rangeEnd fuel c st).bestBlock ∧
        (centerScan coords centers influence normWeights clusterIndices effectMinDist
          dim numWeights i rangeEnd fuel c st).bestBlock < rangeEnd) ∧
      (∀ j ∈ (centerScan coords centers influence normWeights clusterIndices effectMinDist
          dim numWeights i rangeEnd fuel c st).scanned, rangeStart ≤ j ∧ j < rangeEnd) ∧
      (st.bestValue ≠ none →
        (centerScan coords centers influence normWeights clusterIndices effectMinDist
          dim numWeights i rangeEnd fuel c st).bestValue ≠ none) ∧
      (1 ≤ fuel → c < rangeEnd → st.secondBestValue = none →
        (centerScan coords centers influence normWeights clusterIndices effectMinDist
          dim numWeights i rangeEnd fuel c st).bestValue ≠ none) := by
  intro fuel
  induction fuel with
  | zero =>
    intro c st hc hbest hscan
    exact ⟨hbest, hscan, fun h => h, fun h => absurd h (by omega)⟩
  | succ f ih =>
    intro c st hc hbest hscan
    by_cases hcond : c < rangeEnd ∧
        edLT (some (effectMinDist.getD c 0)) st.secondBestValue = true
    · have hunf : centerScan coords centers influence normWeights clusterIndices effectMinDist
          dim numWeights i rangeEnd (Nat.succ f) c st
          = centerScan coords centers influence normWeights clusterIndices effectMinDist
            dim numWeights i rangeEnd f (c + 1)
            (scanStep coords centers influence normWeights clusterIndices dim numWeights i c st) := by
        rw [centerScan, if_pos hcond]
      obtain ⟨hA, hB, hC⟩ := scanStep_spec coords centers influence normWeights clusterIndices
        dim numWeights i rangeStart rangeEnd c st hc hcond.1 hperm hbest hscan
      have hrec := ih (c + 1)
        (scanStep coords centers influence normWeights clusterIndices dim numWeights i c st)
        (by omega) (fun _ => hB) hC
      rw [hunf]
      exact ⟨hrec.1, hrec.2.1, fun _ => hrec.2.2.1 hA, fun _ _ _ => hrec.2.2.1 hA⟩
    · have hunf : centerScan coords centers influence normWeights clusterIndices effectMinDist
          dim numWeights i rangeEnd (Nat.succ f) c st = st := by
        rw [centerScan, if_neg hcond]
      rw [hunf]
      refine ⟨hbest, hscan, fun h => h, ?_⟩
      intro _ hce hsbn
      exfalso
      apply hcond
      refine ⟨hce, ?_⟩
      rw [hsbn]
      exact edLT_some_none _

/-- Claim C6: in assignBlocks with settings.repartition false, a sampled
point with father block f whose previous assignment lies in the contiguous
range [blockSizesPrefixSum[f], blockSizesPrefixSum[f+1]) of the sorted
center array is only ever assigned a block index from that range, and every
center scanned while recomputing the assignment lies in that range.  The
hypothesis hperm states that the per-old-block sorting keeps the segment a
permutation of the range, as the source's segment sort does. -/
theorem assignPoint_stays_in_father_range
    (coords centers influence normWeights : List (List ℚ))
    (clusterIndices : List Nat) (effectMinDist : List ℚ) (pSum : List Nat)
    (dim numWeights i oldCluster fatherBlock : Nat) (ub lb : Option ℚ)
    (hrange : pSum.getD fatherBlock 0 < pSum.getD (fatherBlock + 1) 0)
    (hperm : ∀ c, pSum.getD fatherBlock 0 ≤ c → c < pSum.getD (fatherBlock + 1) 0 →
      pSum.getD fatherBlock 0 ≤ clusterIndices.getD c 0 ∧
      clusterIndices.getD c 0 < pSum.getD (fatherBlock + 1) 0)
    (hold : pSum.getD fatherBlock 0 ≤ oldCluster ∧ oldCluster < pSum.getD (fatherBlock + 1) 0) :
    (pSum.getD fatherBlock 0
        ≤ (assignPoint coords centers influence normWeights clusterIndices effectMinDist pSum
            false dim numWeights i oldCluster fatherBlock ub lb).assignment ∧
      (assignPoint coords centers influence normWeights clusterIndices effectMinDist pSum
            false dim numWeights i oldCluster fatherBlock ub lb).assignment
        < pSum.getD (fatherBlock + 1) 0) ∧
    (∀ j ∈ (assignPoint coords centers influence normWeights clusterIndices effectMinDist pSum
        false dim numWeights i oldCluster fatherBlock ub lb).scanned,
      pSum.getD fatherBlock 0 ≤ j ∧ j < pSum.getD (fatherBlock + 1) 0) := by
  rw [assignPoint]
  by_cases h1 : edLT ub lb = true
  · rw [if_pos h1]
    exact ⟨hold, by simp⟩
  · rw [if_neg h1]
    by_cases h2 : edLT (some (effectiveDistanceTo coords centers influence normWeights dim
        numWeights i oldCluster)) lb = true
    · rw [if_pos h2]
      exact ⟨hold, by simp⟩
    · rw [if_neg h2]
      simp only [Bool.false_eq_true, if_false]
      have hinv := centerScan_inv coords centers influence normWeights clusterIndices
        effectMinDist dim numWeights i (pSum.getD fatherBlock 0) (pSum.getD (fatherBlock + 1) 0)
        hperm (pSum.getD (fatherBlock + 1) 0 - pSum.getD fatherBlock 0) (pSum.getD fatherBlock 0)
        ⟨0, none, 0, none, []⟩ le_rfl (by intro h; exact absurd rfl h) (by simp)
      have hne := hinv.2.2.2 (by omega) hrange rfl
      exact ⟨hinv.1 hne, hinv.2.1⟩

/-- Witness for assignPoint_stays_in_father_range: two old blocks with
ranges [0,2) and [2,4); a point of father block 1 previously in block 2 is
reassigned within [2,4), scanning only centers 2 and 3. -/
theorem assignPoint_stays_in_father_range_witness :
    (([0, 2, 4] : List Nat).getD 1 0
        ≤ (assignPoint [[0, 0, 10, 11]] [[0], [1], [10], [11]] [[1, 1, 1, 1]] [[1]]
            [0, 1, 2, 3] [0, 0, 0, 0] [0, 2, 4]
            false 1 1 0 2 1 none none).assignment ∧
      (assignPoint [[0, 0, 10, 11]] [[0], [1], [10], [11]] [[1, 1, 1, 1]] [[1]]
            [0, 1, 2, 3] [0, 0, 0, 0] [0, 2, 4]
            false 1 1 0 2 1 none none).assignment
        < ([0, 2, 4] : List Nat).getD 2 0) ∧
    (∀ j ∈ (assignPoint [[0, 0, 10, 11]] [[0], [1], [10], [11]] [[1, 1, 1, 1]] [[1]]
        [0, 1, 2, 3] [0, 0, 0, 0] [0, 2, 4]
        false 1 1 0 2 1 none none).scanned,
      ([0, 2, 4] : List Nat).getD 1 0 ≤ j ∧ j < ([0, 2, 4] : List Nat).getD 2 0) :=
  assignPoint_stays_in_father_range [[0, 0, 10, 11]] [[0], [1], [10], [11]] [[1, 1, 1, 1]] [[1]]
    [0, 1, 2, 3] [0, 0, 0, 0] [0, 2, 4] 1 1 0 2 1 none none
    (by decide)
    (by
      intro c h1 h2
      have h1b : 2 ≤ c := h1
      have h2b : c < 4 := h2
      interval_cases c <;> exact ⟨by decide, by decide⟩)
    (by exact ⟨by decide, by decide⟩)

/-! ## KMeans::assignBlocks, whole function (src/src/KMeans.cpp:531-1013)

The function receives the previous assignment and, by reference, the bound
arrays and the influence table; if the sampled index range is empty it
returns the previous assignment at once (src/src/KMeans.cpp:561-564),
leaving the by-reference state untouched.  Otherwise it runs the balance
loop.  std::pow(ratio, influenceExponent) on doubles has no rational
counterpart and is passed in as the function influenceExponentPow; the
DBL_MAX initialisers of scalar min/max folds are modelled by the constant
dblMaxQ, larger than any attainable quantity. -/

/-- Stand-in for std::numeric_limits<double>::max(). -/
def dblMaxQ : ℚ := 2 ^ 1024

/-- Stand-in for 1e-5, the bound-update slack of the source. -/
def slackQ : ℚ := 1 / 100000

/-- Static inputs of assignBlocks. -/
structure AssignCtx where
  coordinates : List (List ℚ)
  centers : List (List ℚ)
  blockSizesPSum : List Nat
  nodeWeights : List (List ℚ)
  normalizedNodeWeights : List (List ℚ)
  oldBlockArr : List Nat
  targetBlockWeights : List (List ℚ)
  minDistanceAllBlocks : List ℚ
  repartition : Bool
  epsilon : ℚ
  influenceExponentPow : ℚ → ℚ
  influenceChangeCap : ℚ
  tightenBounds : Bool
  freezeBalancedInfluence : Bool
  balanceIterations : Nat
  dim : Nat
  numWeights : Nat
  numNewBlocks : Nat

/-- Minimum influence over the weight indices of one block, the fold at
src/src/KMeans.cpp:605-608 and 915-918. -/
def influenceMinFor (influence : List (List ℚ)) (numWeights j : Nat) : ℚ :=
  (List.range numWeights).foldl (fun m w => min m ((influence.getD w []).getD j 0)) dblMaxQ

/-- effectMinDistAllBlocks by block id: minDistance squared times the
minimum influence (src/src/KMeans.cpp:610-615 and 920). -/
def effectMinDistCompute (minDist : List ℚ) (influence : List (List ℚ))
    (numWeights numNewBlocks : Nat) : List ℚ :=
  (List.range numNewBlocks).map
    (fun j => minDist.getD j 0 * minDist.getD j 0 * influenceMinFor influence numWeights j)

/-- The comparator of the per-segment center sort: effective minimum
distance first, center index as the tie break (src/src/KMeans.cpp:636-641). -/
def centerSortLe (effRaw : List ℚ) (a b : Nat) : Bool :=
  decide (effRaw.getD a 0 < effRaw.getD b 0)
    || (decide (effRaw.getD a 0 = effRaw.getD b 0) && decide (a ≤ b))

/-- Sort each old block's contiguous segment of the center index array by
the comparator (src/src/KMeans.cpp:626-644 and 924-943). -/
def sortSegments (pSum : List Nat) (effRaw : List ℚ) (indices : List Nat) : List Nat :=
  (List.range (pSum.length - 1)).foldl
    (fun idxs oldB =>
      let s := pSum.getD oldB 0
      let e := pSum.getD (oldB + 1) 0
      idxs.take s ++ ((idxs.drop s).take (e - s)).mergeSort (centerSortLe effRaw)
        ++ idxs.drop e)
    indices

/-- State threaded through one balance iteration. -/
structure BalanceState where
  assignment : List Nat
  upper : List (Option ℚ)
  lower : List (Option ℚ)
  influence : List (List ℚ)
  influenceGrew : List (List Bool)
  changeUpper : List ℚ
  changeLower : List ℚ
  clusterIndices : List Nat
  effPos : List ℚ
  allBalanced : Bool

/-- State of the per-point assignment pass. -/
structure PassState where
  assignment : List Nat
  upper : List (Option ℚ)
  lower : List (Option ℚ)
  effOwn : List ℚ
  blockWeights : List (List ℚ)

/-- Add the node weights of point i to block j for every weight index
(src/src/KMeans.cpp:791-794). -/
def addNodeWeightsAt (bw nodeWeights : List (List ℚ)) (numWeights i j : Nat) :
    List (List ℚ) :=
  (List.range numWeights).foldl
    (fun bw w =>
      bw.set w ((bw.getD w []).set j ((bw.getD w []).getD j 0 + (nodeWeights.getD w []).getD i 0)))
    bw

/-- The assignment pass over the sampled indices
(src/src/KMeans.cpp:679-796). -/
def assignPass (ctx : AssignCtx) (sampledIndices : List Nat) (b : BalanceState) : PassState :=
  sampledIndices.foldl
    (fun ps i =>
      let r := assignPoint ctx.coordinates ctx.centers b.influence ctx.normalizedNodeWeights
        b.clusterIndices b.effPos ctx.blockSizesPSum ctx.repartition ctx.dim ctx.numWeights
        i (ps.assignment.getD i 0) (ctx.oldBlockArr.getD i 0)
        (ps.upper.getD i none) (ps.lower.getD i none)
      { assignment := ps.assignment.set i r.assignment
        upper := ps.upper.set i r.upper
        lower := ps.lower.set i r.lower
        effOwn := ps.effOwn.set i r.effOwn
        blockWeights := addNodeWeightsAt ps.blockWeights ctx.nodeWeights ctx.numWeights
          i r.assignment })
    (⟨b.assignment, b.upper, b.lower,
      List.replicate b.assignment.length 0,
      List.replicate ctx.numWeights (List.replicate ctx.numNewBlocks 0)⟩ : PassState)

/-- State threaded through the influence update sweep
(src/src/KMeans.cpp:843-887). -/
structure InfluenceUpdState where
  influence : List (List ℚ)
  changeUpper : List ℚ
  changeLower : List ℚ
  influenceGrew : List (List Bool)
  minRatio : ℚ
  maxRatio : ℚ

/-- One (weight, block) step of the influence update. -/
def influenceUpdStep (ctx : AssignCtx) (bw : List (List ℚ)) (iterN w j : Nat)
    (s : InfluenceUpdState) : InfluenceUpdState :=
  let ratio := (bw.getD w []).getD j 0 / (ctx.targetBlockWeights.getD w []).getD j 0
  if |ratio - 1| < ctx.epsilon ∧ ctx.freezeBalancedInfluence then
    { s with minRatio := min s.minRatio 1, maxRatio := max s.maxRatio 1 }
  else
    let multiplier := max (s.changeLower.getD j 0)
      (min (ctx.influenceExponentPow ratio) (s.changeUpper.getD j 0))
    let oldI := (s.influence.getD w []).getD j 0
    let newI := oldI * multiplier
    let influenceRatio := newI / oldI
    let s1 : InfluenceUpdState :=
      { s with influence := s.influence.set w ((s.influence.getD w []).set j newI)
               minRatio := min s.minRatio influenceRatio
               maxRatio := max s.maxRatio influenceRatio }
    let s2 : InfluenceUpdState :=
      if ctx.tightenBounds ∧ 0 < iterN ∧
          (decide (1 < ratio) ≠ (s1.influenceGrew.getD w []).getD j false) then
        { s1 with changeUpper := s1.changeUpper.set j (1/10 + 9/10 * s1.changeUpper.getD j 0)
                  changeLower := s1.changeLower.set j (1/10 + 9/10 * s1.changeLower.getD j 0) }
      else s1
    { s2 with influenceGrew :=
        s2.influenceGrew.set w ((s2.influenceGrew.getD w []).set j (decide (1 < ratio))) }

/-- The influence update sweep over all weights and blocks. -/
def influenceUpdate (ctx : AssignCtx) (bw : List (List ℚ)) (iterN : Nat)
    (s0 : InfluenceUpdState) : InfluenceUpdState :=
  (List.range ctx.numWeights).foldl
    (fun s w => (List.range ctx.numNewBlocks).foldl
      (fun s j => influenceUpdStep ctx bw iterN w j s) s)
    s0

/-- allWeightsBalanced: every weight's maximum block imbalance is within
epsilon (src/src/KMeans.cpp:810-837, single-epsilon path). -/
def allBalancedCheck (ctx : AssignCtx) (bw : List (List ℚ)) : Bool :=
  (List.range ctx.numWeights).all
    (fun w => decide (listMaxQ ((List.range ctx.numNewBlocks).map
      (fun j => ((bw.getD w []).getD j 0 - (ctx.targetBlockWeights.getD w []).getD j 0)
        / (ctx.targetBlockWeights.getD w []).getD j 0)) ≤ ctx.epsilon))

/-- The bound update of the balance loop (src/src/KMeans.cpp:890-907). -/
def updateBounds (ctx : AssignCtx) (sampledIndices : List Nat) (influenceNew : List (List ℚ))
    (minRatio : ℚ) (ps : PassState) : List (Option ℚ) × List (Option ℚ) :=
  sampledIndices.foldl
    (fun ul i =>
      let cluster := ps.assignment.getD i 0
      let newInfluenceEffect :=
        ∑ w ∈ Finset.range ctx.numWeights,
          ((influenceNew.getD w []).getD cluster 0) * ((ctx.normalizedNodeWeights.getD w []).getD i 0)
      let factor := newInfluenceEffect / ps.effOwn.getD i 0 + slackQ
      (ul.1.set i ((ul.1.getD i none).map (fun q => q * factor)),
       ul.2.set i ((ul.2.getD i none).map (fun q => q * (minRatio - slackQ)))))
    (ps.upper, ps.lower)

/-- One body execution of the balance loop. -/
def balanceBody (ctx : AssignCtx) (sampledIndices : List Nat) (iterN : Nat)
    (b : BalanceState) : BalanceState :=
  let ps := assignPass ctx sampledIndices b
  let balanced := allBalancedCheck ctx ps.blockWeights
  let upd := influenceUpdate ctx ps.blockWeights iterN
    ⟨b.influence, b.changeUpper, b.changeLower, b.influenceGrew, dblMaxQ, -(1 / dblMaxQ)⟩
  let ul := updateBounds ctx sampledIndices upd.influence upd.minRatio ps
  let effRaw := effectMinDistCompute ctx.minDistanceAllBlocks upd.influence
    ctx.numWeights ctx.numNewBlocks
  let perm := sortSegments ctx.blockSizesPSum effRaw b.clusterIndices
  { assignment := ps.assignment
    upper := ul.1
    lower := ul.2
    influence := upd.influence
    influenceGrew := upd.influenceGrew
    changeUpper := upd.changeUpper
    changeLower := upd.changeLower
    clusterIndices := perm
    effPos := perm.map (fun j => effRaw.getD j 0)
    allBalanced := balanced }

/-- The do-while balance loop with its fuel (the loop runs at most
max(balanceIterations, 1) times, see balanceLoopIters). -/
def balanceLoopRun (ctx : AssignCtx) (sampledIndices : List Nat) :
    Nat → Nat → BalanceState → BalanceState
  | 0, iterN, b => balanceBody ctx sampledIndices iterN b
  | Nat.succ fuel, iterN, b =>
    let b2 := balanceBody ctx sampledIndices iterN b
    if (!(b2.allBalanced)) && decide (iterN + 1 < ctx.balanceIterations) then
      balanceLoopRun ctx sampledIndices fuel (iterN + 1) b2
    else b2

/-- KMeans::assignBlocks.  Returns the new assignment together with the
final upper bounds, lower bounds and influence table (by-reference outputs
of the source).  An empty sampled range returns the previous assignment at
once with the by-reference state untouched. -/
def assignBlocks (ctx : AssignCtx) (sampledIndices : List Nat)
    (previousAssignment : List Nat) (upper lower : List (Option ℚ))
    (influence : List (List ℚ)) :
    List Nat × List (Option ℚ) × List (Option ℚ) × List (List ℚ) :=
  if sampledIndices.length = 0 then (previousAssignment, upper, lower, influence)
  else
    let effRaw := effectMinDistCompute ctx.minDistanceAllBlocks influence
      ctx.numWeights ctx.numNewBlocks
    let perm0 := sortSegments ctx.blockSizesPSum effRaw (List.range ctx.numNewBlocks)
    let b0 : BalanceState :=
      { assignment := previousAssignment
        upper := upper
        lower := lower
        influence := influence
        influenceGrew := List.replicate ctx.numWeights (List.replicate ctx.numNewBlocks false)
        changeUpper := List.replicate ctx.numNewBlocks (1 + ctx.influenceChangeCap)
        changeLower := List.replicate ctx.numNewBlocks (1 - ctx.influenceChangeCap)
        clusterIndices := perm0
        effPos := perm0.map (fun j => effRaw.getD j 0)
        allBalanced := false }
    let bEnd := balanceLoopRun ctx sampledIndices ctx.balanceIterations 0 b0
    (bEnd.assignment, bEnd.upper, bEnd.lower, bEnd.influence)

/-- Claim C10: with an empty sampled index range, assignBlocks returns the
previous assignment unchanged and leaves the influence values, the upper
bounds and the lower bounds unmodified. -/
theorem assignBlocks_empty_sample_frame (ctx : AssignCtx) (sampledIndices : List Nat)
    (previousAssignment : List Nat) (upper lower : List (Option ℚ))
    (influence : List (List ℚ))
    (hempty : sampledIndices.length = 0) :
    assignBlocks ctx sampledIndices previousAssignment upper lower influence
      = (previousAssignment, upper, lower, influence) := by
  rw [assignBlocks, if_pos hempty]

/-- Witness for assignBlocks_empty_sample_frame at a concrete context. -/
theorem assignBlocks_empty_sample_frame_witness :
    assignBlocks
      ⟨[[0]], [[0]], [0, 1], [[1]], [[1]], [0], [[1]], [0], false, 1/20,
        id, 3/10, false, false, 20, 1, 1, 1⟩
      [] [0] [none] [some 1] [[1]]
      = ([0], [none], [some 1], [[1]]) :=
  assignBlocks_empty_sample_frame
    ⟨[[0]], [[0]], [0, 1], [[1]], [[1]], [0], [[1]], [0], false, 1/20,
      id, 3/10, false, false, 20, 1, 1, 1⟩
    [] [0] [none] [some 1] [[1]] rfl

/-! ## ParcoRepart::twoWayLocalFM (src/ParcoRepart.cpp:1180-1512) and the cut
bookkeeping of one distributed FM pair exchange
(src/ParcoRepart.cpp:874-1177)

The two border regions are std::sets of global indices, modelled as
Finsets.  Adjacency of a vertex is read from the local storage or the halo
storage; the embedding supplies one adjacency map covering both.  The
PrioQueue type of the repository is not under src/; its keys are the
negated gains and extraction takes a minimal key.  Modelled from the spec:
extraction returns the vertex of maximal gain; among equal keys the
embedding takes the smallest vertex id (the tie order inside the missing
PrioQueue is unspecified, and no theorem below depends on it).  The queue
contents need no separate state: a queue holds exactly the unmoved members
of its region, and every key equals the negated current gain, because the
loop recomputes the key of every neighbour of a moved vertex and gains of
non-neighbours are unchanged.  The random tie break of the source,
`(rand() / RAND_MAX) < 0.5` with integer division, is 0 < 0.5 and hence
true for every rand() value except RAND_MAX itself; the embedding takes
queue 0.  Fullness comparisons are exact rational arithmetic in place of
double division. -/

/-- Static data of one pair exchange. -/
structure FMContext where
  adj : Nat → List (Nat × ℚ)
  unweighted : Bool
  firstDummy : Finset Nat
  secondDummy : Finset Nat

/-- Mutable region state of twoWayLocalFM: the two regions and the block
sizes. -/
@[ext]
structure FMState where
  first : Finset Nat
  second : Finset Nat
  sizes : Int × Int

/-- isInFirstBlock of the source: member of the first region or its dummy
layer. -/
def inFirstBlock (ctx : FMContext) (st : FMState) (v : Nat) : Bool :=
  decide (v ∈ st.first) || decide (v ∈ ctx.firstDummy)

/-- isInSecondBlock of the source. -/
def inSecondBlock (ctx : FMContext) (st : FMState) (v : Nat) : Bool :=
  decide (v ∈ st.second) || decide (v ∈ ctx.secondDummy)

/-- The edge weight used by the FM step: 1 when unweighted. -/
def fmEdgeWeight (ctx : FMContext) (p : Nat × ℚ) : ℚ :=
  if ctx.unweighted then 1 else p.2

/-- computeGain (src/ParcoRepart.cpp:1273-1315): over the stored neighbours
of v, self-loops are skipped; a neighbour on the same side contributes the
negated edge weight, one on the other side the edge weight, one in a third
block nothing. -/
def computeGain (ctx : FMContext) (st : FMState) (v : Nat) : ℚ :=
  ((ctx.adj v).map
    (fun p =>
      if p.1 = v then 0
      else
        let e := fmEdgeWeight ctx p
        if inSecondBlock ctx st p.1 then (if inFirstBlock ctx st v then e else -e)
        else if inFirstBlock ctx st p.1 then (if inFirstBlock ctx st v then -e else e)
        else 0)).sum

/-- Extraction from a priority queue keyed by `key`: the element with the
least key, ties broken towards the smaller id. -/
def pickMin (q : Finset Nat) (key : Nat → ℚ) : Option Nat :=
  if h : q.Nonempty then
    some (ofLex ((q.image (fun v => toLex ((key v, v) : ℚ × Nat))).min'
      (h.image (fun v => toLex ((key v, v) : ℚ × Nat))))).2
  else none

/-- Apply one recorded transfer (queueIndex, vertex): erase the vertex from
the source region, insert it into the target region, update the sizes
(src/ParcoRepart.cpp:1421-1430). -/
def applyOne (st : FMState) (t : Nat × Nat) : FMState :=
  if t.1 = 0 then
    ⟨st.first.erase t.2, insert t.2 st.second, (st.sizes.1 - 1, st.sizes.2 + 1)⟩
  else
    ⟨insert t.2 st.first, st.second.erase t.2, (st.sizes.1 + 1, st.sizes.2 - 1)⟩

/-- Apply a list of transfers in order. -/
def applyAll (st : FMState) : List (Nat × Nat) → FMState
  | [] => st
  | t :: ts => applyAll (applyOne st t) ts

/-- Cumulative gain of a transfer list: each move contributes its gain in
the state before the move. -/
def gainOf (ctx : FMContext) (st : FMState) : List (Nat × Nat) → ℚ
  | [] => 0
  | t :: ts => computeGain ctx st t.2 + gainOf ctx (applyOne st t) ts

/-- Undo one transfer (the reverse application of the rollback loop,
src/ParcoRepart.cpp:1495-1507). -/
def undoOne (st : FMState) (t : Nat × Nat) : FMState :=
  if t.1 = 0 then
    ⟨insert t.2 st.first, st.second.erase t.2, (st.sizes.1 + 1, st.sizes.2 - 1)⟩
  else
    ⟨st.first.erase t.2, insert t.2 st.second, (st.sizes.1 - 1, st.sizes.2 + 1)⟩

/-- Undo a list of transfers given from last applied to first. -/
def undoTransfers (st : FMState) (l : List (Nat × Nat)) : FMState :=
  l.foldl undoOne st

/-- The queue selection of one loop iteration
(src/ParcoRepart.cpp:1357-1394): an empty queue forces the other; otherwise
the fuller block moves first, ties decided by the smaller queue key (the
negated gain), the final tie by the integer-division artefact
rand()/RAND_MAX < 0.5, which picks queue 0. -/
def fmQueueChoice (caps : Int × Int) (st : FMState) (q1 q2 : Finset Nat)
    (key : Nat → ℚ) : Nat :=
  if q1.card = 0 then 1
  else if q2.card = 0 then 0
  else
    if (st.sizes.2 : ℚ) / (caps.2 : ℚ) < (st.sizes.1 : ℚ) / (caps.1 : ℚ) ∨
        ((st.sizes.1 : ℚ) / (caps.1 : ℚ) = (st.sizes.2 : ℚ) / (caps.2 : ℚ) ∧
          (match pickMin q1 key with | some v => key v | none => 0)
            < (match pickMin q2 key with | some v => key v | none => 0)) then 0
    else if (st.sizes.1 : ℚ) / (caps.1 : ℚ) < (st.sizes.2 : ℚ) / (caps.2 : ℚ) ∨
        ((st.sizes.1 : ℚ) / (caps.1 : ℚ) = (st.sizes.2 : ℚ) / (caps.2 : ℚ) ∧
          (match pickMin q2 key with | some v => key v | none => 0)
            < (match pickMin q1 key with | some v => key v | none => 0)) then 1
    else 0

/-- The queue loop of twoWayLocalFM (src/ParcoRepart.cpp:1350-1471).
Returns the transfer list, the running gain sums, the block sizes after
each move, and the final state.  The queues are the unmoved members of the
regions; keys are negated current gains. -/
def fmLoop (ctx : FMContext) (caps : Int × Int) :
    Nat → FMState → Finset Nat → ℚ →
      List (Nat × Nat) × List ℚ × List (Int × Int) × FMState
  | 0, st, _, _ => ([], [], [], st)
  | Nat.succ fuel, st, moved, gainSum =>
    if (st.first \ moved).card + (st.second \ moved).card = 0 then ([], [], [], st)
    else if ((st.first \ moved).card = 0 ∧ caps.1 ≤ st.sizes.1) ∨
        ((st.second \ moved).card = 0 ∧ caps.2 ≤ st.sizes.2) then
      ([], [], [], st)
    else
      match pickMin
        (if fmQueueChoice caps st (st.first \ moved) (st.second \ moved)
            (fun x => -(computeGain ctx st x)) = 0
          then st.first \ moved else st.second \ moved)
        (fun x => -(computeGain ctx st x)) with
      | none => ([], [], [], st)
      | some v =>
        let r := fmLoop ctx caps fuel
          (applyOne st (fmQueueChoice caps st (st.first \ moved) (st.second \ moved)
            (fun x => -(computeGain ctx st x)), v))
          (insert v moved) (gainSum + computeGain ctx st v)
        ((fmQueueChoice caps st (st.first \ moved) (st.second \ moved)
            (fun x => -(computeGain ctx st x)), v) :: r.1,
          (gainSum + computeGain ctx st v) :: r.2.1,
          (applyOne st (fmQueueChoice caps st (st.first \ moved) (st.second \ moved)
            (fun x => -(computeGain ctx st x)), v)).sizes :: r.2.2.1,
          r.2.2.2)

/-- The rollback target search (src/ParcoRepart.cpp:1479-1487): the index
and value of the best cumulative gain over prefixes whose block sizes fit
the capacities (fill factor at most 1, which for positive capacities is
componentwise sizes within capacities), starting from (-1, 0). -/
def selectBest (gl : List ℚ) (sl : List (Int × Int)) (caps : Int × Int) : Int × ℚ :=
  (List.range gl.length).foldl
    (fun acc i =>
      if acc.2 < gl.getD i 0 ∧ (sl.getD i (0, 0)).1 ≤ caps.1 ∧ (sl.getD i (0, 0)).2 ≤ caps.2 then
        ((i : Int), gl.getD i 0)
      else acc)
    (-1, 0)

/-- ParcoRepart::twoWayLocalFM: early exit when both blocks are already at
capacity, otherwise the queue loop, the best-prefix search and the rollback
of every later move.  Returns the gain and the final region state (the
source mutates the regions by reference and returns the gain). -/
def twoWayLocalFM (ctx : FMContext) (firstregion secondregion : Finset Nat)
    (blockSizes blockCapacities : Int × Int) : ℚ × FMState :=
  if blockCapacities.1 ≤ blockSizes.1 ∧ blockCapacities.2 ≤ blockSizes.2 then
    (0, ⟨firstregion, secondregion, blockSizes⟩)
  else if (fmLoop ctx blockCapacities (firstregion.card + secondregion.card)
      ⟨firstregion, secondregion, blockSizes⟩ ∅ 0).2.1.length = 0 then
    (0, (fmLoop ctx blockCapacities (firstregion.card + secondregion.card)
      ⟨firstregion, secondregion, blockSizes⟩ ∅ 0).2.2.2)
  else
    ((selectBest
        (fmLoop ctx blockCapacities (firstregion.card + secondregion.card)
          ⟨firstregion, secondregion, blockSizes⟩ ∅ 0).2.1
        (fmLoop ctx blockCapacities (firstregion.card + secondregion.card)
          ⟨firstregion, secondregion, blockSizes⟩ ∅ 0).2.2.1 blockCapacities).2,
      undoTransfers
        (fmLoop ctx blockCapacities (firstregion.card + secondregion.card)
          ⟨firstregion, secondregion, blockSizes⟩ ∅ 0).2.2.2
        (((fmLoop ctx blockCapacities (firstregion.card + secondregion.card)
            ⟨firstregion, secondregion, blockSizes⟩ ∅ 0).1.drop
          ((selectBest
            (fmLoop ctx blockCapacities (firstregion.card + secondregion.card)
              ⟨firstregion, secondregion, blockSizes⟩ ∅ 0).2.1
            (fmLoop ctx blockCapacities (firstregion.card + secondregion.card)
              ⟨firstregion, secondregion, blockSizes⟩ ∅ 0).2.2.1 blockCapacities).1
              + 1).toNat).reverse))

/-- The transfer list the call executes (the internal `transfers` vector of
the source, exposed for specification). -/
def twoWayLocalFMTransfers (ctx : FMContext) (firstregion secondregion : Finset Nat)
    (blockSizes blockCapacities : Int × Int) : List (Nat × Nat) :=
  if blockCapacities.1 ≤ blockSizes.1 ∧ blockCapacities.2 ≤ blockSizes.2 then []
  else (fmLoop ctx blockCapacities (firstregion.card + secondregion.card)
    ⟨firstregion, secondregion, blockSizes⟩ ∅ 0).1

/-- Every transfer moves an unmoved vertex out of the region named by its
queue index, the vertex not being in the other region. -/
def ValidTransfers (st : FMState) (moved : Finset Nat) : List (Nat × Nat) → Prop
  | [] => True
  | t :: ts =>
      (t.1 = 0 ∨ t.1 = 1) ∧ t.2 ∉ moved ∧
      (t.1 = 0 → t.2 ∈ st.first ∧ t.2 ∉ st.second) ∧
      (t.1 ≠ 0 → t.2 ∈ st.second ∧ t.2 ∉ st.first) ∧
      ValidTransfers (applyOne st t) (insert t.2 moved) ts

theorem pickMin_some_mem (q : Finset Nat) (key : Nat → ℚ) (v : Nat)
    (h : pickMin q key = some v) : v ∈ q := by
  rw [pickMin] at h
  split at h
  case isTrue hne =>
    injection h with h2
    have hmem := Finset.min'_mem (q.image (fun v => toLex ((key v, v) : ℚ × Nat)))
      (hne.image (fun v => toLex ((key v, v) : ℚ × Nat)))
    obtain ⟨w, hw, hweq⟩ := Finset.mem_image.mp hmem
    rw [← h2, ← hweq]
    exact hw
  case isFalse => exact Option.noConfusion h

theorem applyOne_disjoint (st : FMState) (t : Nat × Nat)
    (hd : Disjoint st.first st.second) :
    Disjoint (applyOne st t).first (applyOne st t).second := by
  rw [applyOne]
  by_cases h : t.1 = 0
  · rw [if_pos h]
    simp only
    rw [Finset.disjoint_left]
    intro x hx hx2
    rcases Finset.mem_insert.mp hx2 with he | hmem
    · exact absurd he.symm (Finset.ne_of_mem_erase hx).symm
    · exact (Finset.disjoint_left.mp hd) (Finset.mem_of_mem_erase hx) hmem
  · rw [if_neg h]
    simp only
    rw [Finset.disjoint_left]
    intro x hx hx2
    rcases Finset.mem_insert.mp hx with he | hmem
    · exact absurd he (Finset.ne_of_mem_erase hx2)
    · exact (Finset.disjoint_left.mp hd) hmem (Finset.mem_of_mem_erase hx2)

theorem fmLoop_spec (ctx : FMContext) (caps : Int × Int) :
    ∀ fuel st moved gainSum, Disjoint st.first st.second →
      ValidTransfers st moved (fmLoop ctx caps fuel st moved gainSum).1 ∧
      (fmLoop ctx caps fuel st moved gainSum).2.2.2
        = applyAll st (fmLoop ctx caps fuel st moved gainSum).1 ∧
      (fmLoop ctx caps fuel st moved gainSum).2.1.length
        = (fmLoop ctx caps fuel st moved gainSum).1.length ∧
      (fmLoop ctx caps fuel st moved gainSum).2.2.1.length
        = (fmLoop ctx caps fuel st moved gainSum).1.length ∧
      (∀ k, k < (fmLoop ctx caps fuel st moved gainSum).1.length →
        (fmLoop ctx caps fuel st moved gainSum).2.1.getD k 0
          = gainSum + gainOf ctx st ((fmLoop ctx caps fuel st moved gainSum).1.take (k + 1))) ∧
      (∀ k, k < (fmLoop ctx caps fuel st moved gainSum).1.length →
        (fmLoop ctx caps fuel st moved gainSum).2.2.1.getD k (0, 0)
          = (applyAll st ((fmLoop ctx caps fuel st moved gainSum).1.take (k + 1))).sizes) := by
  intro fuel
  induction fuel with
  | zero =>
    intro st moved gainSum hd
    exact ⟨trivial, rfl, rfl, rfl, fun k hk => absurd hk (by simp [fmLoop]),
      fun k hk => absurd hk (by simp [fmLoop])⟩
  | succ f ih =>
    intro st moved gainSum hd
    rw [fmLoop]
    by_cases hb1 : ((st.first \ moved).card + (st.second \ moved).card = 0)
    · rw [if_pos hb1]
      exact ⟨trivial, rfl, rfl, rfl, fun k hk => absurd hk (by simp),
        fun k hk => absurd hk (by simp)⟩
    · rw [if_neg hb1]
      by_cases hb2 : (((st.first \ moved).card = 0 ∧ caps.1 ≤ st.sizes.1) ∨
          ((st.second \ moved).card = 0 ∧ caps.2 ≤ st.sizes.2))
      · rw [if_pos hb2]
        exact ⟨trivial, rfl, rfl, rfl, fun k hk => absurd hk (by simp),
          fun k hk => absurd hk (by simp)⟩
      · rw [if_neg hb2]
        cases hpick : pickMin
            (if fmQueueChoice caps st (st.first \ moved) (st.second \ moved)
                (fun x => -(computeGain ctx st x)) = 0
              then st.first \ moved else st.second \ moved)
            (fun x => -(computeGain ctx st x)) with
        | none =>
          exact ⟨trivial, rfl, rfl, rfl, fun k hk => absurd hk (by simp),
            fun k hk => absurd hk (by simp)⟩
        | some v =>
          simp only []
          have hvq := pickMin_some_mem _ _ _ hpick
          have hQ01 : fmQueueChoice caps st (st.first \ moved) (st.second \ moved)
              (fun x => -(computeGain ctx st x)) = 0 ∨
              fmQueueChoice caps st (st.first \ moved) (st.second \ moved)
                (fun x => -(computeGain ctx st x)) = 1 := by
            rw [fmQueueChoice]
            split_ifs <;> simp
          have hvfirst : fmQueueChoice caps st (st.first \ moved) (st.second \ moved)
              (fun x => -(computeGain ctx st x)) = 0 → v ∈ st.first ∧ v ∉ st.second := by
            intro h0
            rw [if_pos h0] at hvq
            have hm := Finset.mem_sdiff.mp hvq
            exact ⟨hm.1, Finset.disjoint_left.mp hd hm.1⟩
          have hvsecond : fmQueueChoice caps st (st.first \ moved) (st.second \ moved)
              (fun x => -(computeGain ctx st x)) ≠ 0 → v ∈ st.second ∧ v ∉ st.first := by
            intro h0
            rw [if_neg h0] at hvq
            have hm := Finset.mem_sdiff.mp hvq
            exact ⟨hm.1, fun hc => Finset.disjoint_left.mp hd hc hm.1⟩
          have hvmoved : v ∉ moved := by
            rcases hQ01 with h0 | h1
            · rw [if_pos h0] at hvq
              exact (Finset.mem_sdiff.mp hvq).2
            · rw [if_neg (by omega)] at hvq
              exact (Finset.mem_sdiff.mp hvq).2
          obtain ⟨ihval, ihfin, ihlen1, ihlen2, ihgl, ihsl⟩ :=
            ih (applyOne st (fmQueueChoice caps st (st.first \ moved) (st.second \ moved)
                (fun x => -(computeGain ctx st x)), v))
              (insert v moved) (gainSum + computeGain ctx st v)
              (applyOne_disjoint st _ hd)
          refine ⟨⟨hQ01, hvmoved, hvfirst, hvsecond, ihval⟩, ?_, ?_, ?_, ?_, ?_⟩
          · exact ihfin
          · simp [ihlen1]
          · simp [ihlen2]
          · intro k hk
            cases k with
            | zero =>
              simp [gainOf]
            | succ k2 =>
              have hk2 : k2 < (fmLoop ctx caps f
                  (applyOne st (fmQueueChoice caps st (st.first \ moved) (st.second \ moved)
                    (fun x => -(computeGain ctx st x)), v))
                  (insert v moved) (gainSum + computeGain ctx st v)).1.length := by
                simp at hk
                omega
              have hgl := ihgl k2 hk2
              simp only [List.getD_cons_succ, List.take_succ_cons, gainOf]
              rw [hgl]
              ring
          · intro k hk
            cases k with
            | zero =>
              simp [applyAll]
            | succ k2 =>
              have hk2 : k2 < (fmLoop ctx caps f
                  (applyOne st (fmQueueChoice caps st (st.first \ moved) (st.second \ moved)
                    (fun x => -(computeGain ctx st x)), v))
                  (insert v moved) (gainSum + computeGain ctx st v)).1.length := by
                simp at hk
                omega
              have hsl := ihsl k2 hk2
              simp only [List.getD_cons_succ, List.take_succ_cons]
              rw [hsl]
              rfl

theorem selectBest_spec (gl : List ℚ) (sl : List (Int × Int)) (caps : Int × Int) :
    0 ≤ (selectBest gl sl caps).2 ∧
    ((selectBest gl sl caps).1 = -1 ∧ (selectBest gl sl caps).2 = 0 ∨
      ∃ i, i < gl.length ∧ (selectBest gl sl caps).1 = (i : Int) ∧
        (selectBest gl sl caps).2 = gl.getD i 0 ∧
        (sl.getD i (0, 0)).1 ≤ caps.1 ∧ (sl.getD i (0, 0)).2 ≤ caps.2) ∧
    (∀ i, i < gl.length → (sl.getD i (0, 0)).1 ≤ caps.1 → (sl.getD i (0, 0)).2 ≤ caps.2 →
      gl.getD i 0 ≤ (selectBest gl sl caps).2) := by
  suffices h : ∀ n,
      0 ≤ ((List.range n).foldl
        (fun acc i =>
          if acc.2 < gl.getD i 0 ∧ (sl.getD i (0, 0)).1 ≤ caps.1 ∧ (sl.getD i (0, 0)).2 ≤ caps.2
          then ((i : Int), gl.getD i 0) else acc) ((-1 : Int), (0 : ℚ))).2 ∧
      (((List.range n).foldl
        (fun acc i =>
          if acc.2 < gl.getD i 0 ∧ (sl.getD i (0, 0)).1 ≤ caps.1 ∧ (sl.getD i (0, 0)).2 ≤ caps.2
          then ((i : Int), gl.getD i 0) else acc) ((-1 : Int), (0 : ℚ))).1 = -1 ∧
        ((List.range n).foldl
        (fun acc i =>
          if acc.2 < gl.getD i 0 ∧ (sl.getD i (0, 0)).1 ≤ caps.1 ∧ (sl.getD i (0, 0)).2 ≤ caps.2
          then ((i : Int), gl.getD i 0) else acc) ((-1 : Int), (0 : ℚ))).2 = 0 ∨
        ∃ i, i < n ∧ ((List.range n).foldl
          (fun acc i =>
            if acc.2 < gl.getD i 0 ∧ (sl.getD i (0, 0)).1 ≤ caps.1 ∧ (sl.getD i (0, 0)).2 ≤ caps.2
            then ((i : Int), gl.getD i 0) else acc) ((-1 : Int), (0 : ℚ))).1 = (i : Int) ∧
          ((List.range n).foldl
          (fun acc i =>
            if acc.2 < gl.getD i 0 ∧ (sl.getD i (0, 0)).1 ≤ caps.1 ∧ (sl.getD i (0, 0)).2 ≤ caps.2
            then ((i : Int), gl.getD i 0) else acc) ((-1 : Int), (0 : ℚ))).2 = gl.getD i 0 ∧
          (sl.getD i (0, 0)).1 ≤ caps.1 ∧ (sl.getD i (0, 0)).2 ≤ caps.2) ∧
      (∀ i, i < n → (sl.getD i (0, 0)).1 ≤ caps.1 → (sl.getD i (0, 0)).2 ≤ caps.2 →
        gl.getD i 0 ≤ ((List.range n).foldl
          (fun acc i =>
            if acc.2 < gl.getD i 0 ∧ (sl.getD i (0, 0)).1 ≤ caps.1 ∧ (sl.getD i (0, 0)).2 ≤ caps.2
            then ((i : Int), gl.getD i 0) else acc) ((-1 : Int), (0 : ℚ))).2) by
    exact h gl.length
  intro n
  induction n with
  | zero => exact ⟨le_rfl, Or.inl ⟨rfl, rfl⟩, fun i hi => absurd hi (by omega)⟩
  | succ m ih =>
    obtain ⟨ih0, ih1, ih2⟩ := ih
    rw [List.range_succ, List.foldl_append, List.foldl_cons, List.foldl_nil]
    set A := (List.range m).foldl
      (fun acc i =>
        if acc.2 < gl.getD i 0 ∧ (sl.getD i (0, 0)).1 ≤ caps.1 ∧ (sl.getD i (0, 0)).2 ≤ caps.2
        then ((i : Int), gl.getD i 0) else acc) ((-1 : Int), (0 : ℚ)) with hA
    by_cases hc : A.2 < gl.getD m 0 ∧ (sl.getD m (0, 0)).1 ≤ caps.1 ∧ (sl.getD m (0, 0)).2 ≤ caps.2
    · rw [if_pos hc]
      refine ⟨le_of_lt (lt_of_le_of_lt ih0 hc.1), Or.inr ⟨m, by omega, rfl, rfl, hc.2⟩, ?_⟩
      intro i hi hi1 hi2
      by_cases him : i = m
      · subst him; exact le_rfl
      · have : i < m := by omega
        exact le_trans (ih2 i this hi1 hi2) (le_of_lt hc.1)
    · rw [if_neg hc]
      refine ⟨ih0, ?_, ?_⟩
      · rcases ih1 with h | ⟨i, hi, hq⟩
        · exact Or.inl h
        · exact Or.inr ⟨i, by omega, hq⟩
      · intro i hi hi1 hi2
        by_cases him : i = m
        · subst him
          by_contra hgt
          exact hc ⟨lt_of_not_le hgt, hi1, hi2⟩
        · exact ih2 i (by omega) hi1 hi2

theorem validTransfers_take :
    ∀ (l : List (Nat × Nat)) (st : FMState) (moved : Finset Nat) (k : Nat),
      ValidTransfers st moved l → ValidTransfers st moved (l.take k) := by
  intro l
  induction l with
  | nil => intro st moved k _; rw [List.take_nil]; trivial
  | cons t ts ih =>
    intro st moved k h
    cases k with
    | zero => trivial
    | succ k2 =>
      rw [List.take_succ_cons]
      exact ⟨h.1, h.2.1, h.2.2.1, h.2.2.2.1, ih _ _ k2 h.2.2.2.2⟩

theorem undoOne_applyOne (st : FMState) (t : Nat × Nat)
    (hta : t.1 = 0 → t.2 ∈ st.first ∧ t.2 ∉ st.second)
    (htb : t.1 ≠ 0 → t.2 ∈ st.second ∧ t.2 ∉ st.first) :
    undoOne (applyOne st t) t = st := by
  by_cases h : t.1 = 0
  · obtain ⟨hin, hout⟩ := hta h
    have he : undoOne (applyOne st t) t
        = ⟨insert t.2 (st.first.erase t.2), (insert t.2 st.second).erase t.2,
            (st.sizes.1 - 1 + 1, st.sizes.2 + 1 - 1)⟩ := by
      rw [applyOne, undoOne, if_pos h]
      rw [if_pos h]
    rw [he, Finset.insert_erase hin, Finset.erase_insert hout]
    have hz : (st.sizes.1 - 1 + 1, st.sizes.2 + 1 - 1) = st.sizes := by
      have : st.sizes.1 - 1 + 1 = st.sizes.1 := by omega
      have h2 : st.sizes.2 + 1 - 1 = st.sizes.2 := by omega
      rw [this, h2]
    rw [hz]
  · obtain ⟨hin, hout⟩ := htb h
    have he : undoOne (applyOne st t) t
        = ⟨(insert t.2 st.first).erase t.2, insert t.2 (st.second.erase t.2),
            (st.sizes.1 + 1 - 1, st.sizes.2 - 1 + 1)⟩ := by
      rw [applyOne, undoOne, if_neg h]
      rw [if_neg h]
    rw [he, Finset.insert_erase hin, Finset.erase_insert hout]
    have hz : (st.sizes.1 + 1 - 1, st.sizes.2 - 1 + 1) = st.sizes := by
      have : st.sizes.1 + 1 - 1 = st.sizes.1 := by omega
      have h2 : st.sizes.2 - 1 + 1 = st.sizes.2 := by omega
      rw [this, h2]
    rw [hz]

theorem undoTransfers_drop :
    ∀ (trs : List (Nat × Nat)) (st : FMState) (moved : Finset Nat) (k : Nat),
      ValidTransfers st moved trs →
      undoTransfers (applyAll st trs) ((trs.drop k).reverse) = applyAll st (trs.take k) := by
  intro trs
  induction trs with
  | nil =>
    intro st moved k _
    rw [List.drop_nil, List.take_nil, List.reverse_nil]
    rfl
  | cons t ts ih =>
    intro st moved k h
    cases k with
    | zero =>
      show undoTransfers (applyAll (applyOne st t) ts) ((t :: ts).reverse)
        = applyAll st []
      rw [List.reverse_cons, undoTransfers, List.foldl_append]
      have hrec := ih (applyOne st t) (insert t.2 moved) 0 h.2.2.2.2
      rw [List.drop_zero, List.take_zero] at hrec
      rw [undoTransfers] at hrec
      rw [hrec]
      show undoOne (applyAll (applyOne st t) []) t = st
      rw [applyAll]
      exact undoOne_applyOne st t h.2.2.1 h.2.2.2.1
    | succ k2 =>
      show undoTransfers (applyAll (applyOne st t) ts) ((ts.drop k2).reverse)
        = applyAll (applyOne st t) (ts.take k2)
      exact ih (applyOne st t) (insert t.2 moved) k2 h.2.2.2.2

/-- Claim C5, amended: twoWayLocalFM returns the largest cumulative gain
attained by any prefix of its executed move sequence whose block sizes fit
the capacities (and 0 if no such prefix has positive gain) and rolls back
to a prefix attaining that gain; on return, either both block sizes are at
most their capacities, or the gain is 0 and the regions and block sizes are
exactly the entering ones.  The second case -- the early return at
src/ParcoRepart.cpp:1187-1190 and a rollback to the start -- is the only
way a block oversized on entry stays oversized, and is why the original
claim's unconditional capacity conclusion fails (see the counterexample). -/
theorem twoWayLocalFM_rollback_spec (ctx : FMContext)
    (firstregion secondregion : Finset Nat) (blockSizes blockCapacities : Int × Int)
    (hdisj : Disjoint firstregion secondregion) :
    ∃ k,
      k ≤ (twoWayLocalFMTransfers ctx firstregion secondregion blockSizes
        blockCapacities).length ∧
      (twoWayLocalFM ctx firstregion secondregion blockSizes blockCapacities).2
        = applyAll ⟨firstregion, secondregion, blockSizes⟩
            ((twoWayLocalFMTransfers ctx firstregion secondregion blockSizes
              blockCapacities).take k) ∧
      (twoWayLocalFM ctx firstregion secondregion blockSizes blockCapacities).1
        = gainOf ctx ⟨firstregion, secondregion, blockSizes⟩
            ((twoWayLocalFMTransfers ctx firstregion secondregion blockSizes
              blockCapacities).take k) ∧
      0 ≤ (twoWayLocalFM ctx firstregion secondregion blockSizes blockCapacities).1 ∧
      (((twoWayLocalFM ctx firstregion secondregion blockSizes blockCapacities).2.sizes.1
          ≤ blockCapacities.1 ∧
        (twoWayLocalFM ctx firstregion secondregion blockSizes blockCapacities).2.sizes.2
          ≤ blockCapacities.2) ∨
        ((twoWayLocalFM ctx firstregion secondregion blockSizes blockCapacities).1 = 0 ∧
          (twoWayLocalFM ctx firstregion secondregion blockSizes blockCapacities).2
            = ⟨firstregion, secondregion, blockSizes⟩)) ∧
      ∀ m, m ≤ (twoWayLocalFMTransfers ctx firstregion secondregion blockSizes
          blockCapacities).length →
        (applyAll ⟨firstregion, secondregion, blockSizes⟩
          ((twoWayLocalFMTransfers ctx firstregion secondregion blockSizes
            blockCapacities).take m)).sizes.1 ≤ blockCapacities.1 →
        (applyAll ⟨firstregion, secondregion, blockSizes⟩
          ((twoWayLocalFMTransfers ctx firstregion secondregion blockSizes
            blockCapacities).take m)).sizes.2 ≤ blockCapacities.2 →
        gainOf ctx ⟨firstregion, secondregion, blockSizes⟩
            ((twoWayLocalFMTransfers ctx firstregion secondregion blockSizes
              blockCapacities).take m)
          ≤ (twoWayLocalFM ctx firstregion secondregion blockSizes blockCapacities).1 := by
  by_cases hearly : blockCapacities.1 ≤ blockSizes.1 ∧ blockCapacities.2 ≤ blockSizes.2
  · have hr : twoWayLocalFM ctx firstregion secondregion blockSizes blockCapacities
        = (0, ⟨firstregion, secondregion, blockSizes⟩) := by
      rw [twoWayLocalFM, if_pos hearly]
    have ht : twoWayLocalFMTransfers ctx firstregion secondregion blockSizes blockCapacities
        = [] := by
      rw [twoWayLocalFMTransfers, if_pos hearly]
    refine ⟨0, by omega, ?_, ?_, ?_, ?_, ?_⟩
    · rw [hr, ht]; rfl
    · rw [hr, ht]; rfl
    · rw [hr]
    · exact Or.inr ⟨by rw [hr], by rw [hr]⟩
    · intro m hm _ _
      rw [ht] at hm ⊢
      rw [hr]
      have hm0 : m = 0 := by simpa using hm
      subst hm0
      rfl
  · have hst0 : Disjoint (⟨firstregion, secondregion, blockSizes⟩ : FMState).first
        (⟨firstregion, secondregion, blockSizes⟩ : FMState).second := hdisj
    obtain ⟨lval, lfin, llen1, llen2, lgl, lsl⟩ := fmLoop_spec ctx blockCapacities
      (firstregion.card + secondregion.card) ⟨firstregion, secondregion, blockSizes⟩ ∅ 0 hst0
    have ht : twoWayLocalFMTransfers ctx firstregion secondregion blockSizes blockCapacities
        = (fmLoop ctx blockCapacities (firstregion.card + secondregion.card)
            ⟨firstregion, secondregion, blockSizes⟩ ∅ 0).1 := by
      rw [twoWayLocalFMTransfers, if_neg hearly]
    set L := fmLoop ctx blockCapacities (firstregion.card + secondregion.card)
      ⟨firstregion, secondregion, blockSizes⟩ ∅ 0 with hL
    by_cases hzero : L.2.1.length = 0
    · have hnil : L.1 = [] := List.length_eq_zero.mp (by omega)
      have hr : twoWayLocalFM ctx firstregion secondregion blockSizes blockCapacities
          = (0, L.2.2.2) := by
        rw [twoWayLocalFM, if_neg hearly, ← hL, if_pos hzero]
      have hfin : L.2.2.2 = (⟨firstregion, secondregion, blockSizes⟩ : FMState) := by
        rw [lfin, hnil]; rfl
      refine ⟨0, by omega, ?_, ?_, ?_, ?_, ?_⟩
      · rw [hr, hfin, ht, hnil]; rfl
      · rw [hr, ht, hnil]; rfl
      · rw [hr]
      · exact Or.inr ⟨by rw [hr], by rw [hr, hfin]⟩
      · intro m hm _ _
        rw [ht, hnil] at hm ⊢
        rw [hr]
        have hm0 : m = 0 := by simpa using hm
        subst hm0
        rfl
    · obtain ⟨sb0, sbcase, sbmax⟩ := selectBest_spec L.2.1 L.2.2.1 blockCapacities
      have hr : twoWayLocalFM ctx firstregion secondregion blockSizes blockCapacities
          = ((selectBest L.2.1 L.2.2.1 blockCapacities).2,
            undoTransfers L.2.2.2
              ((L.1.drop ((selectBest L.2.1 L.2.2.1 blockCapacities).1 + 1).toNat).reverse)) := by
        rw [twoWayLocalFM, if_neg hearly, ← hL, if_neg hzero]
      have hundo : ∀ k : Nat, undoTransfers L.2.2.2 ((L.1.drop k).reverse)
          = applyAll ⟨firstregion, secondregion, blockSizes⟩ (L.1.take k) := by
        intro k
        rw [lfin]
        exact undoTransfers_drop L.1 ⟨firstregion, secondregion, blockSizes⟩ ∅ k lval
      -- the maximality transfer: any admissible prefix has gain at most the selected one
      have hany : ∀ m, m ≤ L.1.length →
          (applyAll ⟨firstregion, secondregion, blockSizes⟩ (L.1.take m)).sizes.1
            ≤ blockCapacities.1 →
          (applyAll ⟨firstregion, secondregion, blockSizes⟩ (L.1.take m)).sizes.2
            ≤ blockCapacities.2 →
          gainOf ctx ⟨firstregion, secondregion, blockSizes⟩ (L.1.take m)
            ≤ (selectBest L.2.1 L.2.2.1 blockCapacities).2 := by
        intro m hm hm1 hm2
        cases m with
        | zero =>
          rw [List.take_zero]
          show (0 : ℚ) ≤ _
          exact sb0
        | succ m2 =>
          have hm2lt : m2 < L.1.length := by omega
          have hm2lt2 : m2 < L.2.1.length := by omega
          have hglm := lgl m2 hm2lt
          have hslm := lsl m2 hm2lt
          rw [zero_add] at hglm
          rw [← hglm]
          apply sbmax m2 hm2lt2
          · rw [hslm]; exact hm1
          · rw [hslm]; exact hm2
      rcases sbcase with ⟨hneg, hzero2⟩ | ⟨i, hi, hsel1, hsel2, hok1, hok2⟩
      · have hK : ((selectBest L.2.1 L.2.2.1 blockCapacities).1 + 1).toNat = 0 := by
          rw [hneg]
          decide
        have hfin0 : (twoWayLocalFM ctx firstregion secondregion blockSizes blockCapacities).2
            = applyAll ⟨firstregion, secondregion, blockSizes⟩ (L.1.take 0) := by
          rw [hr]
          show undoTransfers L.2.2.2
            ((L.1.drop ((selectBest L.2.1 L.2.2.1 blockCapacities).1 + 1).toNat).reverse) = _
          rw [hK]
          exact hundo 0
        refine ⟨0, by omega, ?_, ?_, ?_, ?_, ?_⟩
        · rw [ht]
          exact hfin0
        · rw [hr, ht]
          show (selectBest L.2.1 L.2.2.1 blockCapacities).2 = _
          rw [hzero2, List.take_zero]
          rfl
        · rw [hr]
          exact sb0
        · refine Or.inr ⟨?_, ?_⟩
          · rw [hr]
            exact hzero2
          · rw [hfin0, List.take_zero]
            rfl
        · intro m hm hm1 hm2
          rw [ht] at hm hm1 hm2 ⊢
          rw [hr]
          show _ ≤ (selectBest L.2.1 L.2.2.1 blockCapacities).2
          exact hany m hm hm1 hm2
      · have hK : ((selectBest L.2.1 L.2.2.1 blockCapacities).1 + 1).toNat = i + 1 := by
          rw [hsel1]
          omega
        have hfin0 : (twoWayLocalFM ctx firstregion secondregion blockSizes blockCapacities).2
            = applyAll ⟨firstregion, secondregion, blockSizes⟩ (L.1.take (i + 1)) := by
          rw [hr]
          show undoTransfers L.2.2.2
            ((L.1.drop ((selectBest L.2.1 L.2.2.1 blockCapacities).1 + 1).toNat).reverse) = _
          rw [hK]
          exact hundo (i + 1)
        have hilen : i < L.1.length := by omega
        have hgli := lgl i hilen
        have hsli := lsl i hilen
        rw [zero_add] at hgli
        refine ⟨i + 1, by rw [ht]; omega, ?_, ?_, ?_, ?_, ?_⟩
        · rw [ht]
          exact hfin0
        · rw [hr, ht]
          show (selectBest L.2.1 L.2.2.1 blockCapacities).2 = _
          rw [hsel2, hgli]
        · rw [hr]
          exact sb0
        · refine Or.inl ⟨?_, ?_⟩
          · rw [hfin0, ← hsli]
            exact hok1
          · rw [hfin0, ← hsli]
            exact hok2
        · intro m hm hm1 hm2
          rw [ht] at hm hm1 hm2 ⊢
          rw [hr]
          show _ ≤ (selectBest L.2.1 L.2.2.1 blockCapacities).2
          exact hany m hm hm1 hm2

/-- Claim C5, counterexample: with both regions empty, entering block sizes
(5,5) and capacities (3,3), twoWayLocalFM takes the early return at
src/ParcoRepart.cpp:1187-1190 and returns gain 0 with the block sizes still
5 > 3: on return the block sizes are not within their capacities, so the
claim as stated fails. -/
theorem twoWayLocalFM_capacity_cex :
    (twoWayLocalFM ⟨fun _ => [], true, ∅, ∅⟩ ∅ ∅ (5, 5) (3, 3)).1 = 0 ∧
    (twoWayLocalFM ⟨fun _ => [], true, ∅, ∅⟩ ∅ ∅ (5, 5) (3, 3)).2.sizes = (5, 5) ∧
    ¬ ((5 : Int) ≤ 3) := by
  refine ⟨?_, ?_, by decide⟩
  · rw [twoWayLocalFM, if_pos (by decide)]
  · rw [twoWayLocalFM, if_pos (by decide)]

/-- Witness for twoWayLocalFM_rollback_spec at a concrete input. -/
theorem twoWayLocalFM_rollback_spec_witness :
    ∃ k,
      k ≤ (twoWayLocalFMTransfers ⟨fun _ => [], true, ∅, ∅⟩ {0} {1} (1, 1) (2, 2)).length ∧
      (twoWayLocalFM ⟨fun _ => [], true, ∅, ∅⟩ {0} {1} (1, 1) (2, 2)).2
        = applyAll ⟨{0}, {1}, (1, 1)⟩
            ((twoWayLocalFMTransfers ⟨fun _ => [], true, ∅, ∅⟩ {0} {1} (1, 1) (2, 2)).take k) ∧
      (twoWayLocalFM ⟨fun _ => [], true, ∅, ∅⟩ {0} {1} (1, 1) (2, 2)).1
        = gainOf ⟨fun _ => [], true, ∅, ∅⟩ ⟨{0}, {1}, (1, 1)⟩
            ((twoWayLocalFMTransfers ⟨fun _ => [], true, ∅, ∅⟩ {0} {1} (1, 1) (2, 2)).take k) ∧
      0 ≤ (twoWayLocalFM ⟨fun _ => [], true, ∅, ∅⟩ {0} {1} (1, 1) (2, 2)).1 ∧
      (((twoWayLocalFM ⟨fun _ => [], true, ∅, ∅⟩ {0} {1} (1, 1) (2, 2)).2.sizes.1 ≤ (2 : Int) ∧
        (twoWayLocalFM ⟨fun _ => [], true, ∅, ∅⟩ {0} {1} (1, 1) (2, 2)).2.sizes.2 ≤ (2 : Int)) ∨
        ((twoWayLocalFM ⟨fun _ => [], true, ∅, ∅⟩ {0} {1} (1, 1) (2, 2)).1 = 0 ∧
          (twoWayLocalFM ⟨fun _ => [], true, ∅, ∅⟩ {0} {1} (1, 1) (2, 2)).2
            = ⟨{0}, {1}, (1, 1)⟩)) ∧
      ∀ m, m ≤ (twoWayLocalFMTransfers ⟨fun _ => [], true, ∅, ∅⟩ {0} {1} (1, 1) (2, 2)).length →
        (applyAll ⟨{0}, {1}, (1, 1)⟩
          ((twoWayLocalFMTransfers ⟨fun _ => [], true, ∅, ∅⟩ {0} {1} (1, 1) (2, 2)).take m)).sizes.1
            ≤ (2 : Int) →
        (applyAll ⟨{0}, {1}, (1, 1)⟩
          ((twoWayLocalFMTransfers ⟨fun _ => [], true, ∅, ∅⟩ {0} {1} (1, 1) (2, 2)).take m)).sizes.2
            ≤ (2 : Int) →
        gainOf ⟨fun _ => [], true, ∅, ∅⟩ ⟨{0}, {1}, (1, 1)⟩
            ((twoWayLocalFMTransfers ⟨fun _ => [], true, ∅, ∅⟩ {0} {1} (1, 1) (2, 2)).take m)
          ≤ (twoWayLocalFM ⟨fun _ => [], true, ∅, ∅⟩ {0} {1} (1, 1) (2, 2)).1 :=
  twoWayLocalFM_rollback_spec ⟨fun _ => [], true, ∅, ∅⟩ {0} {1} (1, 1) (2, 2) (by decide)

/-! ## The cut identity of one FM pair exchange

distributedFMStep applies the winning region of each pair exchange to the
partition and partitionGraph asserts `oldCut - gain == cut` after each round
(src/ParcoRepart.cpp:206-233).  Within one pair exchange between blocks a
and b, the tentative partition is the one induced by the current regions: a
vertex of the first region or its dummy layer lies in a, one of the second
region or its dummy layer in b, every other vertex keeps its old block.
The cut is computeCut's halved double-counted sum, expressed over a finite
vertex set through the per-pair weights fmWeight. -/

/-- Total stored weight from v towards u in the FM adjacency (all
occurrences of u in v's row). -/
def fmWeight (ctx : FMContext) (v u : Nat) : ℚ :=
  (((ctx.adj v).filter (fun p => p.1 = u)).map (fun p => fmEdgeWeight ctx p)).sum

/-- The block of a vertex in the partition induced by the current regions
of the pair exchange between blocks a and b. -/
def blockOf (ctx : FMContext) (piOld : Nat → Nat) (a b : Nat) (st : FMState) (v : Nat) : Nat :=
  if v ∈ st.first ∨ v ∈ ctx.firstDummy then a
  else if v ∈ st.second ∨ v ∈ ctx.secondDummy then b
  else piOld v

/-- Double-counted cut of the induced partition over the vertex set. -/
def fmCutSum (verts : Finset Nat) (ctx : FMContext) (piOld : Nat → Nat) (a b : Nat)
    (st : FMState) : ℚ :=
  ∑ v ∈ verts, ∑ u ∈ verts,
    fmWeight ctx v u *
      (if blockOf ctx piOld a b st v ≠ blockOf ctx piOld a b st u then 1 else 0)

/-- The cut of the induced partition: half the double-counted sum, as in
computeCut. -/
def fmCut (verts : Finset Nat) (ctx : FMContext) (piOld : Nat → Nat) (a b : Nat)
    (st : FMState) : ℚ :=
  fmCutSum verts ctx piOld a b st / 2

theorem list_fiber_regroup (l : List (Nat × ℚ)) (verts : Finset Nat)
    (ew : Nat × ℚ → ℚ) (φ : Nat → ℚ) (h : ∀ p ∈ l, p.1 ∈ verts) :
    (l.map (fun p => ew p * φ p.1)).sum
      = ∑ u ∈ verts, ((l.filter (fun p => p.1 = u)).map ew).sum * φ u := by
  induction l with
  | nil => simp
  | cons p t ih =>
    have hp : p.1 ∈ verts := h p (List.mem_cons_self p t)
    have ht : ∀ q ∈ t, q.1 ∈ verts := fun q hq => h q (List.mem_cons_of_mem p hq)
    rw [List.map_cons, List.sum_cons, ih ht]
    have hfil : ∀ u, (List.filter (fun q => decide (q.1 = u)) (p :: t))
        = if p.1 = u then p :: t.filter (fun q => decide (q.1 = u))
          else t.filter (fun q => decide (q.1 = u)) := by
      intro u
      by_cases hc : p.1 = u
      · rw [if_pos hc, List.filter_cons_of_pos (by simp [hc])]
      · rw [if_neg hc, List.filter_cons_of_neg (by simp [hc])]
    have hsplit : ∀ u, ((List.filter (fun q => decide (q.1 = u)) (p :: t)).map ew).sum * φ u
        = ((t.filter (fun q => decide (q.1 = u))).map ew).sum * φ u
          + (if u = p.1 then ew p * φ u else 0) := by
      intro u
      rw [hfil u]
      by_cases hc : p.1 = u
      · rw [if_pos hc, if_pos hc.symm, List.map_cons, List.sum_cons]
        ring
      · rw [if_neg hc, if_neg (fun hcc => hc hcc.symm)]
        ring
    calc ew p * φ p.1 + ∑ u ∈ verts, ((t.filter (fun q => decide (q.1 = u))).map ew).sum * φ u
        = (∑ u ∈ verts, ((t.filter (fun q => decide (q.1 = u))).map ew).sum * φ u
            + ∑ u ∈ verts, (if u = p.1 then ew p * φ u else 0)) := by
          rw [Finset.sum_ite_eq' verts p.1 (fun u => ew p * φ u), if_pos hp]
          ring
      _ = ∑ u ∈ verts, (((t.filter (fun q => decide (q.1 = u))).map ew).sum * φ u
            + (if u = p.1 then ew p * φ u else 0)) := by
          rw [Finset.sum_add_distrib]
      _ = ∑ u ∈ verts, ((List.filter (fun q => decide (q.1 = u)) (p :: t)).map ew).sum * φ u := by
          apply Finset.sum_congr rfl
          intro u _
          rw [hsplit u]

/-- The per-neighbour gain coefficient of computeGain: +1 towards the other
side, -1 towards the own side, 0 towards a third block. -/
def gainCoeff (ctx : FMContext) (st : FMState) (v u : Nat) : ℚ :=
  if inSecondBlock ctx st u = true then (if inFirstBlock ctx st v = true then 1 else -1)
  else if inFirstBlock ctx st u = true then (if inFirstBlock ctx st v = true then -1 else 1)
  else 0

theorem computeGain_regroup (ctx : FMContext) (st : FMState) (v : Nat) (verts : Finset Nat)
    (hmem : ∀ p ∈ ctx.adj v, p.1 ∈ verts)
    (hns : ∀ p ∈ ctx.adj v, p.1 ≠ v) :
    computeGain ctx st v = ∑ u ∈ verts, fmWeight ctx v u * gainCoeff ctx st v u := by
  rw [computeGain]
  have hterm : ∀ p ∈ ctx.adj v,
      (if p.1 = v then 0
       else
         if inSecondBlock ctx st p.1 then
           (if inFirstBlock ctx st v then fmEdgeWeight ctx p else -(fmEdgeWeight ctx p))
         else if inFirstBlock ctx st p.1 then
           (if inFirstBlock ctx st v then -(fmEdgeWeight ctx p) else fmEdgeWeight ctx p)
         else 0)
        = fmEdgeWeight ctx p * gainCoeff ctx st v p.1 := by
    intro p hp
    rw [if_neg (hns p hp), gainCoeff]
    by_cases h2 : inSecondBlock ctx st p.1 = true
    · rw [if_pos h2, if_pos h2]
      by_cases h1 : inFirstBlock ctx st v = true
      · rw [if_pos h1, if_pos h1]; ring
      · rw [if_neg h1, if_neg h1]; ring
    · rw [if_neg h2, if_neg h2]
      by_cases h3 : inFirstBlock ctx st p.1 = true
      · rw [if_pos h3, if_pos h3]
        by_cases h1 : inFirstBlock ctx st v = true
        · rw [if_pos h1, if_pos h1]; ring
        · rw [if_neg h1, if_neg h1]; ring
      · rw [if_neg h3, if_neg h3]; ring
  rw [List.map_congr_left hterm]
  rw [list_fiber_regroup (ctx.adj v) verts (fun p => fmEdgeWeight ctx p)
    (fun u => gainCoeff ctx st v u) hmem]
  rfl

theorem fmWeight_eq_zero (ctx : FMContext) (v u : Nat)
    (h : ∀ p ∈ ctx.adj v, p.1 ≠ u) : fmWeight ctx v u = 0 := by
  rw [fmWeight]
  have : (ctx.adj v).filter (fun p => p.1 = u) = [] := by
    rw [List.filter_eq_nil_iff]
    intro p hp
    simp [h p hp]
  rw [this]
  rfl

theorem blockOf_applyOne_ne (ctx : FMContext) (piOld : Nat → Nat) (a b : Nat)
    (st : FMState) (t : Nat × Nat) (u : Nat) (hu : u ≠ t.2) :
    blockOf ctx piOld a b (applyOne st t) u = blockOf ctx piOld a b st u := by
  rw [applyOne]
  by_cases h : t.1 = 0
  · rw [if_pos h]
    simp only [blockOf]
    refine if_congr ?_ rfl (if_congr ?_ rfl rfl)
    · simp [Finset.mem_erase, hu]
    · simp [Finset.mem_insert, hu]
  · rw [if_neg h]
    simp only [blockOf]
    refine if_congr ?_ rfl (if_congr ?_ rfl rfl)
    · simp [Finset.mem_insert, hu]
    · simp [Finset.mem_erase, hu]

theorem twoWayLocalFM_prefixState (ctx : FMContext)
    (firstregion secondregion : Finset Nat) (blockSizes blockCapacities : Int × Int)
    (hdisj : Disjoint firstregion secondregion) :
    ∃ k,
      k ≤ (twoWayLocalFMTransfers ctx firstregion secondregion blockSizes
        blockCapacities).length ∧
      (twoWayLocalFM ctx firstregion secondregion blockSizes blockCapacities).2
        = applyAll ⟨firstregion, secondregion, blockSizes⟩
            ((twoWayLocalFMTransfers ctx firstregion secondregion blockSizes
              blockCapacities).take k) ∧
      (twoWayLocalFM ctx firstregion secondregion blockSizes blockCapacities).1
        = gainOf ctx ⟨firstregion, secondregion, blockSizes⟩
            ((twoWayLocalFMTransfers ctx firstregion secondregion blockSizes
              blockCapacities).take k) ∧
      ValidTransfers ⟨firstregion, secondregion, blockSizes⟩ ∅
        ((twoWayLocalFMTransfers ctx firstregion secondregion blockSizes
          blockCapacities).take k) := by
  by_cases hearly : blockCapacities.1 ≤ blockSizes.1 ∧ blockCapacities.2 ≤ blockSizes.2
  · have hr : twoWayLocalFM ctx firstregion secondregion blockSizes blockCapacities
        = (0, ⟨firstregion, secondregion, blockSizes⟩) := by
      rw [twoWayLocalFM, if_pos hearly]
    have ht : twoWayLocalFMTransfers ctx firstregion secondregion blockSizes blockCapacities
        = [] := by
      rw [twoWayLocalFMTransfers, if_pos hearly]
    refine ⟨0, by omega, ?_, ?_, ?_⟩
    · rw [hr, ht]; rfl
    · rw [hr, ht]; rfl
    · rw [ht]; trivial
  · have hst0 : Disjoint (⟨firstregion, secondregion, blockSizes⟩ : FMState).first
        (⟨firstregion, secondregion, blockSizes⟩ : FMState).second := hdisj
    obtain ⟨lval, lfin, llen1, llen2, lgl, lsl⟩ := fmLoop_spec ctx blockCapacities
      (firstregion.card + secondregion.card) ⟨firstregion, secondregion, blockSizes⟩ ∅ 0 hst0
    have ht : twoWayLocalFMTransfers ctx firstregion secondregion blockSizes blockCapacities
        = (fmLoop ctx blockCapacities (firstregion.card + secondregion.card)
            ⟨firstregion, secondregion, blockSizes⟩ ∅ 0).1 := by
      rw [twoWayLocalFMTransfers, if_neg hearly]
    set L := fmLoop ctx blockCapacities (firstregion.card + secondregion.card)
      ⟨firstregion, secondregion, blockSizes⟩ ∅ 0 with hL
    by_cases hzero : L.2.1.length = 0
    · have hnil : L.1 = [] := List.length_eq_zero.mp (by omega)
      have hr : twoWayLocalFM ctx firstregion secondregion blockSizes blockCapacities
          = (0, L.2.2.2) := by
        rw [twoWayLocalFM, if_neg hearly, ← hL, if_pos hzero]
      have hfin : L.2.2.2 = (⟨firstregion, secondregion, blockSizes⟩ : FMState) := by
        rw [lfin, hnil]; rfl
      refine ⟨0, by omega, ?_, ?_, ?_⟩
      · rw [hr, hfin, ht, hnil]; rfl
      · rw [hr, ht, hnil]; rfl
      · rw [ht, hnil]; trivial
    · obtain ⟨sb0, sbcase, sbmax⟩ := selectBest_spec L.2.1 L.2.2.1 blockCapacities
      have hr : twoWayLocalFM ctx firstregion secondregion blockSizes blockCapacities
          = ((selectBest L.2.1 L.2.2.1 blockCapacities).2,
            undoTransfers L.2.2.2
              ((L.1.drop ((selectBest L.2.1 L.2.2.1 blockCapacities).1 + 1).toNat).reverse)) := by
        rw [twoWayLocalFM, if_neg hearly, ← hL, if_neg hzero]
      have hundo : ∀ k : Nat, undoTransfers L.2.2.2 ((L.1.drop k).reverse)
          = applyAll ⟨firstregion, secondregion, blockSizes⟩ (L.1.take k) := by
        intro k
        rw [lfin]
        exact undoTransfers_drop L.1 ⟨firstregion, secondregion, blockSizes⟩ ∅ k lval
      rcases sbcase with ⟨hneg, hzero2⟩ | ⟨i, hi, hsel1, hsel2, hok1, hok2⟩
      · have hK : ((selectBest L.2.1 L.2.2.1 blockCapacities).1 + 1).toNat = 0 := by
          rw [hneg]
          decide
        refine ⟨0, by omega, ?_, ?_, ?_⟩
        · rw [hr, ht]
          show undoTransfers L.2.2.2
            ((L.1.drop ((selectBest L.2.1 L.2.2.1 blockCapacities).1 + 1).toNat).reverse) = _
          rw [hK]
          exact hundo 0
        · rw [hr, ht]
          show (selectBest L.2.1 L.2.2.1 blockCapacities).2 = _
          rw [hzero2, List.take_zero]
          rfl
        · rw [ht]
          exact validTransfers_take L.1 _ _ 0 lval
      · have hK : ((selectBest L.2.1 L.2.2.1 blockCapacities).1 + 1).toNat = i + 1 := by
          rw [hsel1]
          omega
        have hilen : i < L.1.length := by omega
        have hgli := lgl i hilen
        rw [zero_add] at hgli
        refine ⟨i + 1, by rw [ht]; omega, ?_, ?_, ?_⟩
        · rw [hr, ht]
          show undoTransfers L.2.2.2
            ((L.1.drop ((selectBest L.2.1 L.2.2.1 blockCapacities).1 + 1).toNat).reverse) = _
          rw [hK]
          exact hundo (i + 1)
        · rw [hr, ht]
          show (selectBest L.2.1 L.2.2.1 blockCapacities).2 = _
          rw [hsel2, hgli]
        · rw [ht]
          exact validTransfers_take L.1 _ _ (i + 1) lval

theorem fmInv_applyOne (ctx : FMContext) (U : Finset Nat) (st : FMState) (t : Nat × Nat)
    (hU : Disjoint U (ctx.firstDummy ∪ ctx.secondDummy))
    (hUst : st.first ∪ st.second = U)
    (hsides : Disjoint (st.first ∪ ctx.firstDummy) (st.second ∪ ctx.secondDummy))
    (hta : t.1 = 0 → t.2 ∈ st.first ∧ t.2 ∉ st.second)
    (htb : t.1 ≠ 0 → t.2 ∈ st.second ∧ t.2 ∉ st.first) :
    (applyOne st t).first ∪ (applyOne st t).second = U ∧
    Disjoint ((applyOne st t).first ∪ ctx.firstDummy)
      ((applyOne st t).second ∪ ctx.secondDummy) := by
  by_cases h : t.1 = 0
  · obtain ⟨hin, _⟩ := hta h
    have hvU : t.2 ∈ U := by
      rw [← hUst]
      exact Finset.mem_union_left _ hin
    have hvfd : t.2 ∉ ctx.firstDummy := fun hc =>
      Finset.disjoint_left.mp hU hvU (Finset.mem_union_left _ hc)
    rw [applyOne, if_pos h]
    constructor
    · rw [← hUst]
      ext x
      simp only [Finset.mem_union, Finset.mem_erase, Finset.mem_insert]
      by_cases hxv : x = t.2
      · subst hxv
        simp [hin]
      · simp [hxv]
    · rw [Finset.disjoint_left]
      intro x hx hx2
      simp only [Finset.mem_union, Finset.mem_erase, Finset.mem_insert] at hx hx2
      have hxf2 : x ∈ st.first ∪ ctx.firstDummy ∧ x ≠ t.2 := by
        rcases hx with ⟨hne, hxf⟩ | hxfd
        · exact ⟨Finset.mem_union_left _ hxf, hne⟩
        · refine ⟨Finset.mem_union_right _ hxfd, ?_⟩
          intro hxv
          exact hvfd (hxv ▸ hxfd)
      rcases hx2 with (hxv | hxs) | hxsd
      · exact hxf2.2 hxv
      · exact Finset.disjoint_left.mp hsides hxf2.1 (Finset.mem_union_left _ hxs)
      · exact Finset.disjoint_left.mp hsides hxf2.1 (Finset.mem_union_right _ hxsd)
  · obtain ⟨hin, _⟩ := htb h
    have hvU : t.2 ∈ U := by
      rw [← hUst]
      exact Finset.mem_union_right _ hin
    have hvsd : t.2 ∉ ctx.secondDummy := fun hc =>
      Finset.disjoint_left.mp hU hvU (Finset.mem_union_right _ hc)
    rw [applyOne, if_neg h]
    constructor
    · rw [← hUst]
      ext x
      simp only [Finset.mem_union, Finset.mem_erase, Finset.mem_insert]
      by_cases hxv : x = t.2
      · subst hxv
        simp [hin]
      · simp [hxv]
    · rw [Finset.disjoint_left]
      intro x hx hx2
      simp only [Finset.mem_union, Finset.mem_erase, Finset.mem_insert] at hx hx2
      have hxs2 : x ∈ st.second ∪ ctx.secondDummy ∧ x ≠ t.2 := by
        rcases hx2 with ⟨hne, hxs⟩ | hxsd
        · exact ⟨Finset.mem_union_left _ hxs, hne⟩
        · refine ⟨Finset.mem_union_right _ hxsd, ?_⟩
          intro hxv
          exact hvsd (hxv ▸ hxsd)
      rcases hx with (hxv | hxf) | hxfd
      · exact hxs2.2 hxv
      · exact Finset.disjoint_left.mp hsides (Finset.mem_union_left _ hxf) hxs2.1
      · exact Finset.disjoint_left.mp hsides (Finset.mem_union_right _ hxfd) hxs2.1

/-- The change of one cut term under one transfer. -/
def cutDelta (ctx : FMContext) (piOld : Nat → Nat) (a b : Nat) (st : FMState)
    (t : Nat × Nat) (x u : Nat) : ℚ :=
  fmWeight ctx x u *
    ((if blockOf ctx piOld a b (applyOne st t) x ≠ blockOf ctx piOld a b (applyOne st t) u
        then 1 else 0)
      - (if blockOf ctx piOld a b st x ≠ blockOf ctx piOld a b st u then 1 else 0))

theorem cutDelta_other (ctx : FMContext) (piOld : Nat → Nat) (a b : Nat) (st : FMState)
    (t : Nat × Nat) (x u : Nat) (hx : x ≠ t.2) (hu : u ≠ t.2) :
    cutDelta ctx piOld a b st t x u = 0 := by
  rw [cutDelta, blockOf_applyOne_ne ctx piOld a b st t x hx,
    blockOf_applyOne_ne ctx piOld a b st t u hu, sub_self, mul_zero]

theorem cutDelta_diag (ctx : FMContext) (piOld : Nat → Nat) (a b : Nat) (st : FMState)
    (t : Nat × Nat) (x : Nat) : cutDelta ctx piOld a b st t x x = 0 := by
  rw [cutDelta, if_neg (fun hc => hc rfl), if_neg (fun hc => hc rfl), sub_self, mul_zero]

theorem cutDelta_symm (ctx : FMContext) (piOld : Nat → Nat) (a b : Nat) (st : FMState)
    (t : Nat × Nat) (x u : Nat) (hsym : fmWeight ctx x u = fmWeight ctx u x) :
    cutDelta ctx piOld a b st t x u = cutDelta ctx piOld a b st t u x := by
  rw [cutDelta, cutDelta, hsym]
  have h1 : (if blockOf ctx piOld a b (applyOne st t) x ≠ blockOf ctx piOld a b (applyOne st t) u
      then (1 : ℚ) else 0)
      = (if blockOf ctx piOld a b (applyOne st t) u ≠ blockOf ctx piOld a b (applyOne st t) x
        then 1 else 0) := if_congr ne_comm rfl rfl
  have h2 : (if blockOf ctx piOld a b st x ≠ blockOf ctx piOld a b st u then (1 : ℚ) else 0)
      = (if blockOf ctx piOld a b st u ≠ blockOf ctx piOld a b st x then 1 else 0) :=
    if_congr ne_comm rfl rfl
  rw [h1, h2]

theorem blockOf_moved_pre (ctx : FMContext) (piOld : Nat → Nat) (a b : Nat) (st : FMState)
    (Q v : Nat) (hvfd : v ∉ ctx.firstDummy)
    (hQv0 : Q = 0 → v ∈ st.first)
    (hQv1 : Q ≠ 0 → v ∈ st.second ∧ v ∉ st.first) :
    blockOf ctx piOld a b st v = if Q = 0 then a else b := by
  by_cases hQ : Q = 0
  · rw [if_pos hQ, blockOf, if_pos (Or.inl (hQv0 hQ))]
  · rw [if_neg hQ, blockOf,
      if_neg (fun hc => hc.elim (hQv1 hQ).2 hvfd),
      if_pos (Or.inl (hQv1 hQ).1)]

theorem blockOf_moved_post (ctx : FMContext) (piOld : Nat → Nat) (a b : Nat) (st : FMState)
    (Q v : Nat) (hvfd : v ∉ ctx.firstDummy) :
    blockOf ctx piOld a b (applyOne st (Q, v)) v = if Q = 0 then b else a := by
  by_cases hQ : Q = 0
  · rw [if_pos hQ, applyOne, if_pos hQ, blockOf]
    rw [if_neg (fun hc => hc.elim (fun hm => (Finset.not_mem_erase v st.first) hm) hvfd)]
    rw [if_pos (Or.inl (Finset.mem_insert_self v st.second))]
  · rw [if_neg hQ, applyOne, if_neg hQ, blockOf]
    rw [if_pos (Or.inl (Finset.mem_insert_self v st.first))]

theorem cutDelta_row (ctx : FMContext) (piOld : Nat → Nat) (a b : Nat) (st : FMState)
    (Q v u : Nat)
    (hab : a ≠ b)
    (hsides : Disjoint (st.first ∪ ctx.firstDummy) (st.second ∪ ctx.secondDummy))
    (hvfd : v ∉ ctx.firstDummy)
    (hQv0 : Q = 0 → v ∈ st.first ∧ v ∉ st.second)
    (hQv1 : Q ≠ 0 → v ∈ st.second ∧ v ∉ st.first)
    (hu : u ≠ v)
    (hcase : (u ∈ st.first ∨ u ∈ ctx.firstDummy) ∨
      (u ∈ st.second ∨ u ∈ ctx.secondDummy) ∨
      (¬(u ∈ st.first ∨ u ∈ ctx.firstDummy) ∧ ¬(u ∈ st.second ∨ u ∈ ctx.secondDummy) ∧
        piOld u ≠ a ∧ piOld u ≠ b)) :
    cutDelta ctx piOld a b st (Q, v) v u
      = -(fmWeight ctx v u * gainCoeff ctx st v u) := by
  have hBu' := blockOf_applyOne_ne ctx piOld a b st (Q, v) u hu
  have hBv := blockOf_moved_pre ctx piOld a b st Q v hvfd (fun hQ => (hQv0 hQ).1) hQv1
  have hBv' := blockOf_moved_post ctx piOld a b st Q v hvfd
  rw [cutDelta, hBu', hBv, hBv']
  rcases hcase with hc1 | hc2 | ⟨hn1, hn2, hpa, hpb⟩
  · have hBua : blockOf ctx piOld a b st u = a := by rw [blockOf, if_pos hc1]
    have hunots : u ∉ st.second ∪ ctx.secondDummy := by
      apply Finset.disjoint_left.mp hsides
      rcases hc1 with h | h
      · exact Finset.mem_union_left _ h
      · exact Finset.mem_union_right _ h
    have hISu : inSecondBlock ctx st u = false := by
      have h1 : u ∉ st.second := fun hc => hunots (Finset.mem_union_left _ hc)
      have h2 : u ∉ ctx.secondDummy := fun hc => hunots (Finset.mem_union_right _ hc)
      simp [inSecondBlock, h1, h2]
    have hIFu : inFirstBlock ctx st u = true := by
      rcases hc1 with h | h <;> simp [inFirstBlock, h]
    by_cases hQ : Q = 0
    · have hIFv : inFirstBlock ctx st v = true := by simp [inFirstBlock, (hQv0 hQ).1]
      have hg : gainCoeff ctx st v u = -1 := by
        simp [gainCoeff, hISu, hIFu, hIFv]
      rw [hBua, hg, if_pos hQ, if_pos hQ, if_pos (Ne.symm hab), if_neg (fun hc => hc rfl)]
      ring
    · have hIFv : inFirstBlock ctx st v = false := by
        simp [inFirstBlock, (hQv1 hQ).2, hvfd]
      have hg : gainCoeff ctx st v u = 1 := by
        simp [gainCoeff, hISu, hIFu, hIFv]
      rw [hBua, hg, if_neg hQ, if_neg hQ, if_neg (fun hc => hc rfl), if_pos (Ne.symm hab)]
      ring
  · have hunotf : u ∉ st.first ∪ ctx.firstDummy := by
      intro hc
      apply Finset.disjoint_left.mp hsides hc
      rcases hc2 with h | h
      · exact Finset.mem_union_left _ h
      · exact Finset.mem_union_right _ h
    have hno1 : ¬(u ∈ st.first ∨ u ∈ ctx.firstDummy) := fun hc =>
      hunotf (hc.elim (Finset.mem_union_left _) (Finset.mem_union_right _))
    have hBub : blockOf ctx piOld a b st u = b := by
      rw [blockOf, if_neg hno1, if_pos hc2]
    have hISu : inSecondBlock ctx st u = true := by
      rcases hc2 with h | h <;> simp [inSecondBlock, h]
    by_cases hQ : Q = 0
    · have hIFv : inFirstBlock ctx st v = true := by simp [inFirstBlock, (hQv0 hQ).1]
      have hg : gainCoeff ctx st v u = 1 := by
        simp [gainCoeff, hISu, hIFv]
      rw [hBub, hg, if_pos hQ, if_pos hQ, if_neg (fun hc => hc rfl), if_pos hab]
      ring
    · have hIFv : inFirstBlock ctx st v = false := by
        simp [inFirstBlock, (hQv1 hQ).2, hvfd]
      have hg : gainCoeff ctx st v u = -1 := by
        simp [gainCoeff, hISu, hIFv]
      rw [hBub, hg, if_neg hQ, if_neg hQ, if_pos hab, if_neg (fun hc => hc rfl)]
      ring
  · have hBupi : blockOf ctx piOld a b st u = piOld u := by
      rw [blockOf, if_neg hn1, if_neg hn2]
    have hg : gainCoeff ctx st v u = 0 := by
      have h1 : u ∉ st.second := fun hc => hn2 (Or.inl hc)
      have h2 : u ∉ ctx.secondDummy := fun hc => hn2 (Or.inr hc)
      have h3 : u ∉ st.first := fun hc => hn1 (Or.inl hc)
      have h4 : u ∉ ctx.firstDummy := fun hc => hn1 (Or.inr hc)
      simp [gainCoeff, inSecondBlock, inFirstBlock, h1, h2, h3, h4]
    by_cases hQ : Q = 0
    · rw [hBupi, hg, if_pos hQ, if_pos hQ, if_pos (Ne.symm hpb), if_pos (Ne.symm hpa)]
      ring
    · rw [hBupi, hg, if_neg hQ, if_neg hQ, if_pos (Ne.symm hpa), if_pos (Ne.symm hpb)]
      ring

theorem cut_move (ctx : FMContext) (piOld : Nat → Nat) (a b : Nat) (verts U : Finset Nat)
    (st : FMState) (Q v : Nat)
    (hab : a ≠ b)
    (hsym : ∀ x y, fmWeight ctx x y = fmWeight ctx y x)
    (hns : ∀ x, ∀ p ∈ ctx.adj x, p.1 ≠ x)
    (hclosure : ∀ x ∈ U, ∀ p ∈ ctx.adj x, p.1 ∈ verts ∧
      (p.1 ∈ U ∨ p.1 ∈ ctx.firstDummy ∨ p.1 ∈ ctx.secondDummy ∨
        (piOld p.1 ≠ a ∧ piOld p.1 ≠ b)))
    (hU : Disjoint U (ctx.firstDummy ∪ ctx.secondDummy))
    (hUsub : U ⊆ verts)
    (hUst : st.first ∪ st.second = U)
    (hsides : Disjoint (st.first ∪ ctx.firstDummy) (st.second ∪ ctx.secondDummy))
    (hQv0 : Q = 0 → v ∈ st.first ∧ v ∉ st.second)
    (hQv1 : Q ≠ 0 → v ∈ st.second ∧ v ∉ st.first) :
    fmCutSum verts ctx piOld a b (applyOne st (Q, v))
      = fmCutSum verts ctx piOld a b st - 2 * computeGain ctx st v := by
  have hvU : v ∈ U := by
    rw [← hUst]
    by_cases hQ : Q = 0
    · exact Finset.mem_union_left _ (hQv0 hQ).1
    · exact Finset.mem_union_right _ (hQv1 hQ).1
  have hvfd : v ∉ ctx.firstDummy := fun hc =>
    Finset.disjoint_left.mp hU hvU (Finset.mem_union_left _ hc)
  have hvverts : v ∈ verts := hUsub hvU
  have hmemv : ∀ p ∈ ctx.adj v, p.1 ∈ verts := fun p hp => (hclosure v hvU p hp).1
  -- pointwise identity on the moved row
  have hpoint : ∀ u ∈ verts, cutDelta ctx piOld a b st (Q, v) v u
      = -(fmWeight ctx v u * gainCoeff ctx st v u) := by
    intro u _
    by_cases huv : u = v
    · subst huv
      rw [cutDelta_diag, fmWeight_eq_zero ctx u u (hns u)]
      ring
    · by_cases hw : fmWeight ctx v u = 0
      · rw [cutDelta, hw]
        ring
      · have hocc : ∃ p ∈ ctx.adj v, p.1 = u := by
          by_contra hc
          push_neg at hc
          exact hw (fmWeight_eq_zero ctx v u hc)
        obtain ⟨p, hp, hpu⟩ := hocc
        have hclo := (hclosure v hvU p hp).2
        rw [hpu] at hclo
        by_cases hu1 : u ∈ st.first ∨ u ∈ ctx.firstDummy
        · exact cutDelta_row ctx piOld a b st Q v u hab hsides hvfd hQv0 hQv1 huv
            (Or.inl hu1)
        · by_cases hu2 : u ∈ st.second ∨ u ∈ ctx.secondDummy
          · exact cutDelta_row ctx piOld a b st Q v u hab hsides hvfd hQv0 hQv1 huv
              (Or.inr (Or.inl hu2))
          · have hpi : piOld u ≠ a ∧ piOld u ≠ b := by
              rcases hclo with hc | hc | hc | hc
              · rw [← hUst] at hc
                rcases Finset.mem_union.mp hc with h | h
                · exact absurd (Or.inl h) hu1
                · exact absurd (Or.inl h) hu2
              · exact absurd (Or.inr hc) hu1
              · exact absurd (Or.inr hc) hu2
              · exact hc
            exact cutDelta_row ctx piOld a b st Q v u hab hsides hvfd hQv0 hQv1 huv
              (Or.inr (Or.inr ⟨hu1, hu2, hpi.1, hpi.2⟩))
  have hrow : ∑ u ∈ verts, cutDelta ctx piOld a b st (Q, v) v u
      = -(computeGain ctx st v) := by
    rw [Finset.sum_congr rfl hpoint, Finset.sum_neg_distrib,
      computeGain_regroup ctx st v verts hmemv (hns v)]
  have hdiag : cutDelta ctx piOld a b st (Q, v) v v = 0 :=
    cutDelta_diag ctx piOld a b st (Q, v) v
  have hrowerase : ∑ u ∈ verts.erase v, cutDelta ctx piOld a b st (Q, v) v u
      = -(computeGain ctx st v) := by
    have := Finset.add_sum_erase verts (cutDelta ctx piOld a b st (Q, v) v) hvverts
    rw [hdiag, zero_add] at this
    rw [this, hrow]
  have hdiff : fmCutSum verts ctx piOld a b (applyOne st (Q, v))
      - fmCutSum verts ctx piOld a b st
      = ∑ x ∈ verts, ∑ u ∈ verts, cutDelta ctx piOld a b st (Q, v) x u := by
    rw [fmCutSum, fmCutSum, ← Finset.sum_sub_distrib]
    apply Finset.sum_congr rfl
    intro x _
    rw [← Finset.sum_sub_distrib]
    apply Finset.sum_congr rfl
    intro u _
    rw [cutDelta]
    ring
  have hinner : ∀ x ∈ verts, ∑ u ∈ verts, cutDelta ctx piOld a b st (Q, v) x u
      = cutDelta ctx piOld a b st (Q, v) x v
        + ∑ u ∈ verts.erase v, cutDelta ctx piOld a b st (Q, v) x u := fun x _ =>
    (Finset.add_sum_erase verts _ hvverts).symm
  have hzero : ∑ x ∈ verts.erase v, ∑ u ∈ verts.erase v,
      cutDelta ctx piOld a b st (Q, v) x u = 0 := by
    apply Finset.sum_eq_zero
    intro x hx
    apply Finset.sum_eq_zero
    intro u hu
    exact cutDelta_other ctx piOld a b st (Q, v) x u (Finset.ne_of_mem_erase hx)
      (Finset.ne_of_mem_erase hu)
  have hswap : ∑ x ∈ verts.erase v, cutDelta ctx piOld a b st (Q, v) x v
      = ∑ x ∈ verts.erase v, cutDelta ctx piOld a b st (Q, v) v x := by
    apply Finset.sum_congr rfl
    intro x _
    exact cutDelta_symm ctx piOld a b st (Q, v) x v (hsym x v)
  have hcol : ∑ x ∈ verts, cutDelta ctx piOld a b st (Q, v) x v
      = -(computeGain ctx st v) := by
    have := Finset.add_sum_erase verts (fun x => cutDelta ctx piOld a b st (Q, v) x v) hvverts
    rw [← this]
    show cutDelta ctx piOld a b st (Q, v) v v + _ = _
    rw [hdiag, zero_add, hswap, hrowerase]
  have htotal : ∑ x ∈ verts, ∑ u ∈ verts, cutDelta ctx piOld a b st (Q, v) x u
      = -(2 * computeGain ctx st v) := by
    rw [Finset.sum_congr rfl hinner, Finset.sum_add_distrib, hcol]
    have hsecond : ∑ x ∈ verts, ∑ u ∈ verts.erase v,
        cutDelta ctx piOld a b st (Q, v) x u = -(computeGain ctx st v) := by
      have := Finset.add_sum_erase verts
        (fun x => ∑ u ∈ verts.erase v, cutDelta ctx piOld a b st (Q, v) x u) hvverts
      rw [← this]
      show (∑ u ∈ verts.erase v, cutDelta ctx piOld a b st (Q, v) v u) + _ = _
      rw [hrowerase, hzero, add_zero]
    rw [hsecond]
    ring
  have := hdiff
  rw [htotal] at this
  linarith

theorem fmCutSum_applyAll (ctx : FMContext) (piOld : Nat → Nat) (a b : Nat)
    (verts U : Finset Nat)
    (hab : a ≠ b)
    (hsym : ∀ x y, fmWeight ctx x y = fmWeight ctx y x)
    (hns : ∀ x, ∀ p ∈ ctx.adj x, p.1 ≠ x)
    (hclosure : ∀ x ∈ U, ∀ p ∈ ctx.adj x, p.1 ∈ verts ∧
      (p.1 ∈ U ∨ p.1 ∈ ctx.firstDummy ∨ p.1 ∈ ctx.secondDummy ∨
        (piOld p.1 ≠ a ∧ piOld p.1 ≠ b)))
    (hU : Disjoint U (ctx.firstDummy ∪ ctx.secondDummy))
    (hUsub : U ⊆ verts) :
    ∀ (trs : List (Nat × Nat)) (st : FMState) (moved : Finset Nat),
      ValidTransfers st moved trs →
      st.first ∪ st.second = U →
      Disjoint (st.first ∪ ctx.firstDummy) (st.second ∪ ctx.secondDummy) →
      fmCutSum verts ctx piOld a b (applyAll st trs)
        = fmCutSum verts ctx piOld a b st - 2 * gainOf ctx st trs := by
  intro trs
  induction trs with
  | nil =>
    intro st moved _ _ _
    rw [applyAll, gainOf]
    ring
  | cons t ts ih =>
    intro st moved hval hUst hsides
    obtain ⟨hq01, hmv, hta, htb, hrest⟩ := hval
    obtain ⟨hU', hsides'⟩ := fmInv_applyOne ctx U st t hU hUst hsides hta htb
    have hstep : fmCutSum verts ctx piOld a b (applyOne st t)
        = fmCutSum verts ctx piOld a b st - 2 * computeGain ctx st t.2 := by
      have := cut_move ctx piOld a b verts U st t.1 t.2 hab hsym hns hclosure hU hUsub
        hUst hsides hta htb
      rw [← this]
    rw [applyAll, gainOf, ih (applyOne st t) (insert t.2 moved) hrest hU' hsides', hstep]
    ring

/-- Claim C1: the cut identity asserted after each FM round
(src/ParcoRepart.cpp:230, `assert(oldCut - gain == cut)`): for one pair
exchange between blocks a and b on a symmetric graph without self-loops,
whose region vertices only neighbour region or dummy vertices or vertices
of third blocks, the cut of the partition induced by the returned regions
equals the cut induced by the entering regions minus the returned gain. -/
theorem fmPairExchange_cut_identity (ctx : FMContext) (piOld : Nat → Nat) (a b : Nat)
    (verts firstregion secondregion : Finset Nat)
    (blockSizes blockCapacities : Int × Int)
    (hab : a ≠ b)
    (hsides : Disjoint (firstregion ∪ ctx.firstDummy) (secondregion ∪ ctx.secondDummy))
    (hdum : Disjoint (firstregion ∪ secondregion) (ctx.firstDummy ∪ ctx.secondDummy))
    (hUsub : firstregion ∪ secondregion ⊆ verts)
    (hsym : ∀ x y, fmWeight ctx x y = fmWeight ctx y x)
    (hns : ∀ x, ∀ p ∈ ctx.adj x, p.1 ≠ x)
    (hclosure : ∀ x ∈ firstregion ∪ secondregion, ∀ p ∈ ctx.adj x, p.1 ∈ verts ∧
      (p.1 ∈ firstregion ∪ secondregion ∨ p.1 ∈ ctx.firstDummy ∨ p.1 ∈ ctx.secondDummy ∨
        (piOld p.1 ≠ a ∧ piOld p.1 ≠ b))) :
    fmCut verts ctx piOld a b
        (twoWayLocalFM ctx firstregion secondregion blockSizes blockCapacities).2
      = fmCut verts ctx piOld a b ⟨firstregion, secondregion, blockSizes⟩
        - (twoWayLocalFM ctx firstregion secondregion blockSizes blockCapacities).1 := by
  have hdisj : Disjoint firstregion secondregion :=
    Finset.disjoint_of_subset_right Finset.subset_union_left
      (Finset.disjoint_of_subset_left Finset.subset_union_left hsides)
  obtain ⟨k, hk, hfin, hgain, hvalid⟩ := twoWayLocalFM_prefixState ctx firstregion
    secondregion blockSizes blockCapacities hdisj
  have hUst : (⟨firstregion, secondregion, blockSizes⟩ : FMState).first
      ∪ (⟨firstregion, secondregion, blockSizes⟩ : FMState).second
      = firstregion ∪ secondregion := rfl
  have hcs := fmCutSum_applyAll ctx piOld a b verts (firstregion ∪ secondregion) hab hsym
    hns hclosure hdum hUsub
    ((twoWayLocalFMTransfers ctx firstregion secondregion blockSizes blockCapacities).take k)
    ⟨firstregion, secondregion, blockSizes⟩ ∅ hvalid hUst hsides
  rw [fmCut, fmCut, hfin, hgain, hcs]
  ring

/-- Concrete instance of the C1 cut identity: one vertex in each region,
empty adjacency, blocks 0 and 1, third block 2 elsewhere. -/
theorem fmPairExchange_cut_identity_witness :
    fmCut {0, 1} ⟨fun _ => [], true, ∅, ∅⟩ (fun _ => 2) 0 1
        (twoWayLocalFM ⟨fun _ => [], true, ∅, ∅⟩ {0} {1} (1, 1) (2, 2)).2
      = fmCut {0, 1} ⟨fun _ => [], true, ∅, ∅⟩ (fun _ => 2) 0 1
          ⟨{0}, {1}, (1, 1)⟩
        - (twoWayLocalFM ⟨fun _ => [], true, ∅, ∅⟩ {0} {1} (1, 1) (2, 2)).1 :=
  fmPairExchange_cut_identity ⟨fun _ => [], true, ∅, ∅⟩ (fun _ => 2) 0 1 {0, 1} {0} {1}
    (1, 1) (2, 2) (by decide) (by decide) (by decide) (by decide)
    (fun _ _ => rfl)
    (fun x p hp => absurd hp (List.not_mem_nil p))
    (fun x _ p hp => absurd hp (List.not_mem_nil p))

end Geographer